import Mathlib

/-!
Verification of the `onewire` 1-Wire bus driver crate.

This file gives a shallow embedding, in Lean 4, of the parts of the crate
that the specification's testable properties talk about:

* the Dallas/Maxim CRC-8 function (`src/lib.rs`, `compute_partial_crc8`);
* the DS18B20 fixed-point temperature decoder (`src/ds18b20.rs`, `split_temp`);
* address parsing and formatting (`src/address.rs`);
* the bit-banged driver (`src/driver.rs`), embedded as a trace semantics over
  an arbitrary GPIO behaviour;
* the bit helpers and the ROM-search engine (`src/search.rs`), run against a
  simulated bus holding an arbitrary finite set of ROMs.

Machine integers (`u8`, `u16`, `i16`) are modelled as `Nat`/`Int` with
explicit two's-complement wrapping where overflow can occur.
-/

set_option maxHeartbeats 1000000
set_option maxRecDepth 10000

namespace OneWire

/-! ### CRC-8 (src/lib.rs)

`compute_partial_crc8` processes one bit at a time, LSB first, with the
reflected polynomial 0x8C.  `u8` values are modelled as `Nat`; every
operation involved (`^`, `>>`, `&`) keeps values below 256 when its inputs
are below 256, so no wrap-around modelling is needed. -/

/-- One bit step of the CRC-8 loop body from `compute_partial_crc8`. -/
def crc8_bit_step (crc byte : Nat) : Nat :=
  let mix := (crc ^^^ byte) &&& 0x01
  let crc1 := crc >>> 1
  if mix != 0x00 then crc1 ^^^ 0x8C else crc1

/-- The inner 8-iteration loop of `compute_partial_crc8`, acting on the
pair (crc, byte); the byte is shifted right after each bit. -/
def crc8_byte_loop : Nat → Nat × Nat → Nat × Nat
  | 0, s => s
  | n + 1, (crc, byte) => crc8_byte_loop n (crc8_bit_step crc byte, byte >>> 1)

/-- Process one data byte, as in the body of the `for byte in data` loop. -/
def crc8_byte (crc byte : Nat) : Nat := (crc8_byte_loop 8 (crc, byte)).1

/-- `compute_partial_crc8(crc, data)` from `src/lib.rs`. -/
def compute_crc8_from (crc : Nat) (data : List Nat) : Nat :=
  data.foldl crc8_byte crc

/-- C5 (counterexample): the concrete part of the claim is false.
`compute_partial_crc8(0, [0x01,0x22,0x8f,0xf9,0x08,0x00,0x01])` evaluates to
0xd8, not to the claimed 0x68.  (The same loop evaluated on the Maxim
reference vector `[0x02,0x1C,0xB8,0x01,0x00,0x00,0x00]` does give the
documented 0xA2, confirming the embedding.) -/
theorem crc8_concrete_value_not_68 :
    compute_crc8_from 0 [0x01, 0x22, 0x8f, 0xf9, 0x08, 0x00, 0x01] = 0xd8
    ∧ compute_crc8_from 0 [0x01, 0x22, 0x8f, 0xf9, 0x08, 0x00, 0x01] ≠ 0x68
    ∧ compute_crc8_from 0 [0x02, 0x1C, 0xB8, 0x01, 0x00, 0x00, 0x00] = 0xA2 := by
  refine ⟨by decide, by decide, by decide⟩

/-- C5 (amended): the CRC-8 function is an incremental homomorphism over
concatenation: for all byte strings `a` and `b`,
`compute_partial_crc8(0, a ++ b) = compute_partial_crc8(compute_partial_crc8(0, a), b)`;
and concretely `compute_partial_crc8(0, [0x01,0x22,0x8f,0xf9,0x08,0x00,0x01]) = 0xd8`. -/
theorem crc8_concat_hom :
    (∀ a b : List Nat,
      compute_crc8_from 0 (a ++ b) = compute_crc8_from (compute_crc8_from 0 a) b)
    ∧ compute_crc8_from 0 [0x01, 0x22, 0x8f, 0xf9, 0x08, 0x00, 0x01] = 0xd8 := by
  constructor
  · intro a b
    unfold compute_crc8_from
    exact List.foldl_append ..
  · decide

/-! ### DS18B20 temperature decoding (src/ds18b20.rs)

`split_temp` works on `u16` (modelled as `Nat < 2^16`) and on `i16`
(modelled as `Int` with explicit two's-complement wrapping).  The `i16`
operations used by the source translate as follows:

* `temperature as i16` is `toI16`;
* unary negation on `i16` wraps (release semantics): `wrapI16 (-v)`;
* `abs >> 4` is an arithmetic shift right, i.e. flooring division by 16,
  which for the positive divisor 16 equals Euclidean division `Int.ediv`;
* `abs & 0xF` keeps the 4 low bits of the two's-complement representation,
  which equals the Euclidean remainder `Int.emod abs 16`. -/

/-- Reinterpret a `u16` bit pattern as an `i16` value. -/
def toI16 (x : Nat) : Int := if x < 0x8000 then (x : Int) else (x : Int) - 0x10000

/-- Wrap an integer into the `i16` range, two's-complement style. -/
def wrapI16 (v : Int) : Int := (v + 0x8000) % 0x10000 - 0x8000

/-- `split_temp` from `src/ds18b20.rs`: split a raw DS18B20 reading into an
integer part and a fraction in ten-thousandths. -/
def split_temp (temperature : Nat) : Int × Int :=
  if temperature < 0x8000 then
    (((temperature >>> 4 : Nat) : Int), ((temperature &&& 0xF : Nat) : Int) * 625)
  else
    let abs : Int := wrapI16 (-(toI16 temperature))
    (-(Int.ediv abs 16), -625 * Int.emod abs 16)

/-- C2 (counterexample): at the input 0x8000 the `i16` negation
`-(temperature as i16)` wraps back to -32768, so `split_temp` returns
`(2048, 0)` although 0x8000 read as an `i16` is -32768, whose sixteenth is
-2048: the decomposition identity `10000 * integer + fraction = 625 * value`
fails at this input. -/
theorem split_temp_wraps_at_0x8000 :
    split_temp 0x8000 = (2048, 0)
    ∧ 10000 * (split_temp 0x8000).1 + (split_temp 0x8000).2 ≠ 625 * toI16 0x8000 := by
  refine ⟨by decide, by decide⟩

/-- C2 (amended): for every `u16` value `x` other than 0x8000,
`split_temp(x)` returns a pair `(integer, fraction)` whose components never
have strictly opposite signs, such that
`integer + fraction/10000 = (x as i16)/16` exactly (stated with
denominators cleared as `10000 * integer + fraction = 625 * (x as i16)`);
for `x > 0x8000` it computes `abs = -(x as i16)`,
`integer = -(abs >> 4)`, `fraction = -625 * (abs & 0xF)`; and the literal
cases hold: `split_temp 0x0191 = (25, 625)`, `split_temp 0xFE6F = (-25, -625)`,
`split_temp 0xFC90 = (-55, 0)`. -/
theorem split_temp_spec :
    (∀ x : Nat, x < 0x10000 → x ≠ 0x8000 →
      ((0 ≤ (split_temp x).1 ∧ 0 ≤ (split_temp x).2)
        ∨ ((split_temp x).1 ≤ 0 ∧ (split_temp x).2 ≤ 0))
      ∧ 10000 * (split_temp x).1 + (split_temp x).2 = 625 * toI16 x
      ∧ (0x8000 ≤ x →
          (split_temp x).1 = -(Int.ediv (-(toI16 x)) 16)
          ∧ (split_temp x).2 = -625 * Int.emod (-(toI16 x)) 16))
    ∧ split_temp 0x0191 = (25, 625)
    ∧ split_temp 0xFE6F = (-25, -625)
    ∧ split_temp 0xFC90 = (-55, 0) := by
  refine ⟨?_, by decide, by decide, by decide⟩
  intro x hx hne
  by_cases hlt : x < 0x8000
  · have hval : toI16 x = (x : Int) := by simp [toI16, hlt]
    have hshift : (x >>> 4 : Nat) = x / 16 := Nat.shiftRight_eq_div_pow x 4
    have hand : (x &&& 0xF : Nat) = x % 16 := Nat.and_pow_two_sub_one_eq_mod x 4
    have hpair : split_temp x = (((x / 16 : Nat) : Int), ((x % 16 : Nat) : Int) * 625) := by
      unfold split_temp
      rw [if_pos hlt, hshift, hand]
    rw [hpair, hval]
    refine ⟨Or.inl ⟨by omega, by positivity⟩, by omega, by omega⟩
  · -- negative range, x ≥ 0x8001 since x ≠ 0x8000
    have hge : 0x8001 ≤ x := by omega
    have hval : toI16 x = (x : Int) - 0x10000 := by simp [toI16, hlt]
    have hxle : (x : Int) ≤ 0xFFFF := by exact_mod_cast Nat.le_of_lt_succ hx
    have hxge : (0x8001 : Int) ≤ (x : Int) := by exact_mod_cast hge
    have hneg : -(toI16 x) = (0x10000 : Int) - (x : Int) := by rw [hval]; ring
    have habs : wrapI16 (-(toI16 x)) = (0x10000 : Int) - (x : Int) := by
      rw [hneg]
      unfold wrapI16
      have h1 : (0x10000 : Int) - (x : Int) + 0x8000 = 0x18000 - (x : Int) := by ring
      rw [h1, Int.emod_eq_of_lt (by omega) (by omega)]
      ring
    set A : Int := (0x10000 : Int) - (x : Int) with hA
    have hmod_lt : Int.emod A 16 < 16 := Int.emod_lt_of_pos _ (by norm_num)
    have hmod_nonneg : 0 ≤ Int.emod A 16 := Int.emod_nonneg _ (by norm_num)
    have hsplit : 16 * Int.ediv A 16 + Int.emod A 16 = A := Int.ediv_add_emod A 16
    have hdiv_nonneg : 0 ≤ Int.ediv A 16 := Int.ediv_nonneg (by omega) (by norm_num)
    have hpair : split_temp x = (-(Int.ediv A 16), -625 * Int.emod A 16) := by
      unfold split_temp
      rw [if_neg hlt, habs]
    rw [hpair, hval]
    have hAeq : -((x : Int) - 0x10000) = A := by rw [hA]; ring
    rw [hAeq]
    exact ⟨Or.inr ⟨by simpa using hdiv_nonneg, by dsimp only; omega⟩,
      by dsimp only; omega, fun _ => ⟨rfl, rfl⟩⟩

/-- Witness for `split_temp_spec`: its hypotheses are satisfiable, e.g. at
x = 0xFE6F. -/
theorem split_temp_spec_witness :
    (0xFE6F : Nat) < 0x10000 ∧ (0xFE6F : Nat) ≠ 0x8000
    ∧ (((0 ≤ (split_temp 0xFE6F).1 ∧ 0 ≤ (split_temp 0xFE6F).2)
        ∨ ((split_temp 0xFE6F).1 ≤ 0 ∧ (split_temp 0xFE6F).2 ≤ 0))
      ∧ 10000 * (split_temp 0xFE6F).1 + (split_temp 0xFE6F).2 = 625 * toI16 0xFE6F
      ∧ (0x8000 ≤ 0xFE6F →
          (split_temp 0xFE6F).1 = -(Int.ediv (-(toI16 0xFE6F)) 16)
          ∧ (split_temp 0xFE6F).2 = -625 * Int.emod (-(toI16 0xFE6F)) 16)) :=
  ⟨by decide, by decide, split_temp_spec.1 0xFE6F (by decide) (by decide)⟩

/-! ### Address text format (src/address.rs)

Characters are modelled as Unicode codepoints (`Nat`).  `FromStr` filters
out whitespace and `':'` (codepoint 58), then consumes exactly 8 pairs of
hex digits; `Display` emits lowercase hex with `':'` between bytes.
Whitespace is modelled as the ASCII whitespace set {space, tab, LF, CR};
the concrete strings of the claims only ever use the space character. -/

/-- Error type of `FromStr for Address`. -/
inductive AddressError
  | NotEnough
  | Invalid
deriving DecidableEq, Repr

/-- `hex_to_u8` from `src/address.rs`, on codepoints. -/
def hex_to_u8 (c : Nat) : Option Nat :=
  if 48 ≤ c ∧ c ≤ 57 then some (c - 48)
  else if 97 ≤ c ∧ c ≤ 102 then some (c - 97 + 10)
  else if 65 ≤ c ∧ c ≤ 70 then some (c - 65 + 10)
  else none

/-- ASCII whitespace (model of `char::is_whitespace` on the characters the
format can meet). -/
def isWhitespaceC (c : Nat) : Bool := c == 32 || c == 9 || c == 10 || c == 13

/-- The separator-discarding filter from `from_str`:
`s.chars().filter(|c| !c.is_whitespace() && *c != ':')`. -/
def sepFilter (s : List Nat) : List Nat :=
  s.filter (fun c => !isWhitespaceC c && c != 58)

/-- The `for i in 0..8` pair-consuming loop of `from_str`: take two
characters per byte; a missing character is `NotEnough`, a non-hex
character in a complete pair is `Invalid`. -/
def parsePairs : Nat → List Nat → Except AddressError (List Nat)
  | 0, _ => Except.ok []
  | n + 1, h :: l :: rest =>
    match hex_to_u8 h, hex_to_u8 l with
    | some hv, some lv =>
      match parsePairs n rest with
      | Except.ok bs => Except.ok ((hv <<< 4 ||| lv) :: bs)
      | Except.error e => Except.error e
    | _, _ => Except.error AddressError.Invalid
  | _ + 1, _ => Except.error AddressError.NotEnough

/-- `Address::from_str` from `src/address.rs`. -/
def from_str (s : List Nat) : Except AddressError (List Nat) :=
  parsePairs 8 (sepFilter s)

/-- One lowercase hex digit, as produced by the `{:02x}` format. -/
def hexDigitC (n : Nat) : Nat := if n < 10 then 48 + n else 87 + n

/-- Two lowercase hex digits of one byte (`{:02x}` zero-padded). -/
def byteHex (b : Nat) : List Nat := [hexDigitC (b / 16), hexDigitC (b % 16)]

/-- `Display for Address`: eight `{:02x}` fields joined by `':'`. -/
def addrDisplay (a : List Nat) : List Nat :=
  byteHex (a.getD 0 0) ++ 58 :: (byteHex (a.getD 1 0) ++ 58 :: (byteHex (a.getD 2 0)
    ++ 58 :: (byteHex (a.getD 3 0) ++ 58 :: (byteHex (a.getD 4 0)
    ++ 58 :: (byteHex (a.getD 5 0) ++ 58 :: (byteHex (a.getD 6 0)
    ++ 58 :: byteHex (a.getD 7 0)))))))

/-- ASCII lower-casing of a codepoint. -/
def toLowerC (c : Nat) : Nat := if 65 ≤ c ∧ c ≤ 90 then c + 32 else c

theorem hexDigitC_hex {d : Nat} (hd : d < 16) : hex_to_u8 (hexDigitC d) = some d := by
  interval_cases d <;> decide

theorem hexDigitC_keep {d : Nat} (hd : d < 16) :
    (!isWhitespaceC (hexDigitC d) && hexDigitC d != 58) = true := by
  interval_cases d <;> decide

theorem byte_recombine : ∀ b < 256, (b / 16) <<< 4 ||| b % 16 = b := by
  decide

theorem sepFilter_keep {c : Nat} (h : (!isWhitespaceC c && c != 58) = true) (rest : List Nat) :
    sepFilter (c :: rest) = c :: sepFilter rest := by
  simp [sepFilter, List.filter_cons, h]

theorem sepFilter_block {b : Nat} (hb : b < 256) (rest : List Nat) :
    sepFilter (byteHex b ++ rest) = byteHex b ++ sepFilter rest := by
  have h1 := hexDigitC_keep (Nat.div_lt_of_lt_mul (by omega) : b / 16 < 16)
  have h2 := hexDigitC_keep (Nat.mod_lt b (by omega) : b % 16 < 16)
  simp only [byteHex, List.cons_append, List.nil_append]
  rw [sepFilter_keep h1, sepFilter_keep h2]

theorem sepFilter_colon (rest : List Nat) : sepFilter (58 :: rest) = sepFilter rest := by
  simp [sepFilter, List.filter_cons]

theorem parsePairs_block {b : Nat} (hb : b < 256) (rest : List Nat) (k : Nat) :
    parsePairs (k + 1) (byteHex b ++ rest)
      = match parsePairs k rest with
        | Except.ok bs => Except.ok (b :: bs)
        | Except.error e => Except.error e := by
  have h1 := hexDigitC_hex (Nat.div_lt_of_lt_mul (by omega) : b / 16 < 16)
  have h2 := hexDigitC_hex (Nat.mod_lt b (by omega) : b % 16 < 16)
  simp only [byteHex, List.cons_append, List.nil_append, parsePairs, h1, h2]
  rw [byte_recombine b hb]
  rfl

theorem hex_toLowerC (c : Nat) : hex_to_u8 (toLowerC c) = hex_to_u8 c := by
  unfold toLowerC hex_to_u8
  split_ifs <;> first
    | rfl
    | omega

theorem keep_toLowerC (c : Nat) :
    (!isWhitespaceC (toLowerC c) && toLowerC c != 58)
      = (!isWhitespaceC c && c != 58) := by
  unfold toLowerC
  split_ifs with h
  · have e1 : isWhitespaceC (c + 32) = false := by
      simp only [isWhitespaceC, Bool.or_eq_false_iff, beq_eq_false_iff_ne]
      omega
    have e2 : isWhitespaceC c = false := by
      simp only [isWhitespaceC, Bool.or_eq_false_iff, beq_eq_false_iff_ne]
      omega
    have e3 : (c + 32 != 58) = true := by
      simp only [bne_iff_ne]
      omega
    have e4 : (c != 58) = true := by
      simp only [bne_iff_ne]
      omega
    rw [e1, e2, e3, e4]
  · rfl

theorem sepFilter_map_toLowerC (s : List Nat) :
    sepFilter (s.map toLowerC) = (sepFilter s).map toLowerC := by
  unfold sepFilter
  rw [List.filter_map]
  congr 1
  exact List.filter_congr (fun c _ => keep_toLowerC c)

theorem parsePairs_map_toLowerC : ∀ (k : Nat) (cs : List Nat),
    parsePairs k (cs.map toLowerC) = parsePairs k cs := by
  intro k
  induction k with
  | zero => intro cs; rfl
  | succ n ih =>
    intro cs
    match cs with
    | [] => rfl
    | [h] => rfl
    | h :: l :: rest =>
      simp only [List.map_cons, parsePairs, hex_toLowerC, ih rest]

/-- C4: for every Address `a`, parsing the string produced by formatting `a`
(lowercase hex bytes separated by `':'`) returns `a` again; parsing is
insensitive to the presence of separator characters (stripping them first
changes nothing) and to ASCII hex letter case (lower-casing the input
changes nothing); and the three spellings `"01228ff908000168"`,
`"01 22 8f f9 08 00 01 68"` and `"01:22:8f:f9:08:00:01:68"` all parse to
`[0x01,0x22,0x8f,0xf9,0x08,0x00,0x01,0x68]`. -/
theorem address_display_roundtrip :
    (∀ a : List Nat, a.length = 8 → (∀ b ∈ a, b < 256) →
      from_str (addrDisplay a) = Except.ok a)
    ∧ (∀ s : List Nat, from_str (sepFilter s) = from_str s)
    ∧ (∀ s : List Nat, from_str (s.map toLowerC) = from_str s)
    ∧ from_str [48, 49, 50, 50, 56, 102, 102, 57, 48, 56, 48, 48, 48, 49, 54, 56]
        = Except.ok [0x01, 0x22, 0x8f, 0xf9, 0x08, 0x00, 0x01, 0x68]
    ∧ from_str [48, 49, 32, 50, 50, 32, 56, 102, 32, 102, 57, 32, 48, 56, 32, 48,
        48, 32, 48, 49, 32, 54, 56]
        = Except.ok [0x01, 0x22, 0x8f, 0xf9, 0x08, 0x00, 0x01, 0x68]
    ∧ from_str [48, 49, 58, 50, 50, 58, 56, 102, 58, 102, 57, 58, 48, 56, 58, 48,
        48, 58, 48, 49, 58, 54, 56]
        = Except.ok [0x01, 0x22, 0x8f, 0xf9, 0x08, 0x00, 0x01, 0x68] := by
  refine ⟨?_, ?_, ?_, by rfl, by rfl, by rfl⟩
  · rintro ⟨⟩ ha hb
    case nil => simp at ha
    case cons b0 a =>
    rcases a with _ | ⟨b1, a⟩; · simp at ha
    rcases a with _ | ⟨b2, a⟩; · simp at ha
    rcases a with _ | ⟨b3, a⟩; · simp at ha
    rcases a with _ | ⟨b4, a⟩; · simp at ha
    rcases a with _ | ⟨b5, a⟩; · simp at ha
    rcases a with _ | ⟨b6, a⟩; · simp at ha
    rcases a with _ | ⟨b7, a⟩; · simp at ha
    rcases a with _ | ⟨b8, a⟩
    swap; · simp at ha
    have h0 : b0 < 256 := hb b0 (by simp)
    have h1 : b1 < 256 := hb b1 (by simp)
    have h2 : b2 < 256 := hb b2 (by simp)
    have h3 : b3 < 256 := hb b3 (by simp)
    have h4 : b4 < 256 := hb b4 (by simp)
    have h5 : b5 < 256 := hb b5 (by simp)
    have h6 : b6 < 256 := hb b6 (by simp)
    have h7 : b7 < 256 := hb b7 (by simp)
    show parsePairs 8 (sepFilter _) = _
    have hd : addrDisplay [b0, b1, b2, b3, b4, b5, b6, b7]
        = byteHex b0 ++ 58 :: (byteHex b1 ++ 58 :: (byteHex b2 ++ 58 :: (byteHex b3
          ++ 58 :: (byteHex b4 ++ 58 :: (byteHex b5 ++ 58 :: (byteHex b6
          ++ 58 :: byteHex b7)))))) := rfl
    rw [hd, sepFilter_block h0, sepFilter_colon, sepFilter_block h1, sepFilter_colon,
      sepFilter_block h2, sepFilter_colon, sepFilter_block h3, sepFilter_colon,
      sepFilter_block h4, sepFilter_colon, sepFilter_block h5, sepFilter_colon,
      sepFilter_block h6, sepFilter_colon]
    have hlast : sepFilter (byteHex b7) = byteHex b7 := by
      have := sepFilter_block h7 []
      simpa using this
    rw [hlast]
    rw [parsePairs_block h0, parsePairs_block h1, parsePairs_block h2, parsePairs_block h3,
      parsePairs_block h4, parsePairs_block h5, parsePairs_block h6]
    have : parsePairs 1 (byteHex b7) = Except.ok [b7] := by
      have := parsePairs_block h7 [] 0
      simpa using this
    rw [this]
  · intro s
    unfold from_str
    unfold sepFilter
    rw [List.filter_filter]
    congr 1
    apply List.filter_congr
    intro c _
    simp
  · intro s
    unfold from_str
    rw [sepFilter_map_toLowerC, parsePairs_map_toLowerC]

/-- Witness for `address_display_roundtrip`: the first conjunct applied to
the concrete address `[0x01,0x22,0x8f,0xf9,0x08,0x00,0x01,0x68]`. -/
theorem address_display_roundtrip_witness :
    ([0x01, 0x22, 0x8f, 0xf9, 0x08, 0x00, 0x01, 0x68] : List Nat).length = 8
    ∧ (∀ b ∈ ([0x01, 0x22, 0x8f, 0xf9, 0x08, 0x00, 0x01, 0x68] : List Nat), b < 256)
    ∧ from_str (addrDisplay [0x01, 0x22, 0x8f, 0xf9, 0x08, 0x00, 0x01, 0x68])
        = Except.ok [0x01, 0x22, 0x8f, 0xf9, 0x08, 0x00, 0x01, 0x68] :=
  ⟨by decide, by decide,
    address_display_roundtrip.1 [0x01, 0x22, 0x8f, 0xf9, 0x08, 0x00, 0x01, 0x68]
      (by decide) (by decide)⟩

/-- Bounded quantification over a list extended by two elements at the
front, in terms of `getD`. -/
theorem ball_getD_cons2 (p : Nat → Prop) (a b : Nat) (cs : List Nat) (m : Nat) :
    (∀ j < m + 2, p ((a :: b :: cs).getD j 0))
      ↔ p a ∧ p b ∧ (∀ j < m, p (cs.getD j 0)) := by
  constructor
  · intro h
    refine ⟨h 0 (by omega), h 1 (by omega), fun j hj => ?_⟩
    have := h (j + 2) (by omega)
    simpa using this
  · rintro ⟨ha, hb, h⟩ j hj
    match j with
    | 0 => exact ha
    | 1 => exact hb
    | j + 2 =>
      have := h j (by omega)
      simpa using this

/-- `Except.isOk` on the two constructors. -/
theorem isOk_ok (a : List Nat) : (Except.ok a : Except AddressError (List Nat)).isOk = true := rfl

theorem isOk_error (e : AddressError) :
    (Except.error e : Except AddressError (List Nat)).isOk = false := rfl

/-- Classification of `parsePairs`: success requires `2k` characters, all
hex; `NotEnough` is reported exactly when the characters run out before a
non-hex character is met in a complete pair. -/
theorem parsePairs_classify : ∀ (k : Nat) (cs : List Nat),
    ((parsePairs k cs).isOk = true
      ↔ (2 * k ≤ cs.length ∧ ∀ j < 2 * k, (hex_to_u8 (cs.getD j 0)).isSome = true))
    ∧ (parsePairs k cs = Except.error AddressError.NotEnough
      ↔ (cs.length < 2 * k
          ∧ ∀ j < cs.length - cs.length % 2, (hex_to_u8 (cs.getD j 0)).isSome = true)) := by
  intro k
  induction k with
  | zero =>
    intro cs
    refine ⟨?_, ?_⟩
    · rw [show parsePairs 0 cs = Except.ok [] from rfl, isOk_ok]
      simp
    · rw [show parsePairs 0 cs = Except.ok [] from rfl]
      constructor
      · intro h
        cases h
      · rintro ⟨h1, -⟩
        exact absurd h1 (by omega)
  | succ n ih =>
    intro cs
    match cs with
    | [] =>
      refine ⟨?_, ?_⟩
      · rw [show parsePairs (n + 1) ([] : List Nat) = Except.error AddressError.NotEnough
          from rfl, isOk_error]
        constructor
        · intro h
          cases h
        · rintro ⟨h1, -⟩
          exact absurd h1 (by simp)
      · constructor
        · intro _
          refine ⟨by simp only [List.length_nil]; omega, ?_⟩
          intro j hj
          simp only [List.length_nil] at hj
          omega
        · intro _
          rfl
    | [h] =>
      refine ⟨?_, ?_⟩
      · rw [show parsePairs (n + 1) [h] = Except.error AddressError.NotEnough from rfl, isOk_error]
        constructor
        · intro hc
          cases hc
        · rintro ⟨h1, -⟩
          simp at h1
          omega
      · constructor
        · intro _
          refine ⟨by simp only [List.length_cons, List.length_nil]; omega, ?_⟩
          intro j hj
          simp only [List.length_cons, List.length_nil] at hj
          omega
        · intro _
          rfl
    | h :: l :: rest =>
      have hlen : (h :: l :: rest).length = rest.length + 2 := rfl
      have hball : ∀ m, ((∀ j < m + 2, (hex_to_u8 ((h :: l :: rest).getD j 0)).isSome = true)
          ↔ (hex_to_u8 h).isSome = true ∧ (hex_to_u8 l).isSome = true
            ∧ (∀ j < m, (hex_to_u8 (rest.getD j 0)).isSome = true)) := fun m =>
        ball_getD_cons2 (fun c => (hex_to_u8 c).isSome = true) h l rest m
      have hfloor : (h :: l :: rest).length - (h :: l :: rest).length % 2
          = (rest.length - rest.length % 2) + 2 := by
        rw [hlen]
        omega
      have hfloor_ge : 2 ≤ (h :: l :: rest).length - (h :: l :: rest).length % 2 := by
        rw [hfloor]
        omega
      rcases hh : hex_to_u8 h with _ | hv
      case none =>
        have hred : parsePairs (n + 1) (h :: l :: rest) = Except.error AddressError.Invalid := by
          simp [parsePairs, hh]
        refine ⟨?_, ?_⟩
        · rw [hred, isOk_error]
          constructor
          · intro hc
            cases hc
          · rintro ⟨-, hall⟩
            have := hall 0 (by omega)
            rw [show ((h :: l :: rest).getD 0 0) = h from rfl, hh] at this
            cases this
        · rw [hred]
          constructor
          · intro hc
            cases hc
          · rintro ⟨-, hall⟩
            have := hall 0 (by omega)
            rw [show ((h :: l :: rest).getD 0 0) = h from rfl, hh] at this
            cases this
      case some =>
      rcases hl : hex_to_u8 l with _ | lv
      case none =>
        have hred : parsePairs (n + 1) (h :: l :: rest) = Except.error AddressError.Invalid := by
          simp [parsePairs, hh, hl]
        refine ⟨?_, ?_⟩
        · rw [hred, isOk_error]
          constructor
          · intro hc
            cases hc
          · rintro ⟨-, hall⟩
            have := hall 1 (by omega)
            rw [show ((h :: l :: rest).getD 1 0) = l from rfl, hl] at this
            cases this
        · rw [hred]
          constructor
          · intro hc
            cases hc
          · rintro ⟨-, hall⟩
            have := hall 1 (by omega)
            rw [show ((h :: l :: rest).getD 1 0) = l from rfl, hl] at this
            cases this
      case some =>
        have hred : parsePairs (n + 1) (h :: l :: rest)
            = match parsePairs n rest with
              | Except.ok bs => Except.ok ((hv <<< 4 ||| lv) :: bs)
              | Except.error e => Except.error e := by
          simp [parsePairs, hh, hl]
        obtain ⟨ihOk, ihNE⟩ := ih rest
        refine ⟨?_, ?_⟩
        · rw [hred]
          have hiso : (match parsePairs n rest with
              | Except.ok bs => Except.ok ((hv <<< 4 ||| lv) :: bs)
              | Except.error e => (Except.error e : Except AddressError (List Nat))).isOk
              = (parsePairs n rest).isOk := by
            rcases parsePairs n rest with e | bs <;> rfl
          rw [hiso, ihOk]
          rw [show 2 * (n + 1) = 2 * n + 2 from by omega, hball (2 * n)]
          rw [hlen, hh, hl]
          simp only [Option.isSome_some]
          constructor
          · rintro ⟨h1, h2⟩
            exact ⟨by omega, trivial, trivial, h2⟩
          · rintro ⟨h1, -, -, h2⟩
            exact ⟨by omega, h2⟩
        · rw [hred]
          have hiso : (match parsePairs n rest with
              | Except.ok bs => Except.ok ((hv <<< 4 ||| lv) :: bs)
              | Except.error e => (Except.error e : Except AddressError (List Nat)))
                = Except.error AddressError.NotEnough
              ↔ parsePairs n rest = Except.error AddressError.NotEnough := by
            rcases hres : parsePairs n rest with e | bs
            · simp
            · simp
          rw [hiso, ihNE, hfloor, hball (rest.length - rest.length % 2)]
          rw [hlen, hh, hl]
          simp only [Option.isSome_some]
          constructor
          · rintro ⟨h1, h2⟩
            exact ⟨by omega, trivial, trivial, h2⟩
          · rintro ⟨h1, -, -, h2⟩
            exact ⟨by omega, h2⟩

/-- C7 (counterexample): both universally quantified parts of the claim
fail.  `"01228ff908000168!"` has 17 non-separator characters — not exactly
16 hex digits — yet parsing succeeds (trailing characters are ignored);
and `"00000000000000z"` has the non-hex character `'z'` among the first 16
hex positions, yet parsing reports `NotEnough`, not `Invalid` (the `'z'`
is first consumed as the high nibble of a pair that runs out of
characters). -/
theorem address_parse_claim_counterexample :
    from_str [48, 49, 50, 50, 56, 102, 102, 57, 48, 56, 48, 48, 48, 49, 54, 56, 33]
        = Except.ok [0x01, 0x22, 0x8f, 0xf9, 0x08, 0x00, 0x01, 0x68]
    ∧ (sepFilter [48, 49, 50, 50, 56, 102, 102, 57, 48, 56, 48, 48, 48, 49, 54, 56, 33]).length
        = 17
    ∧ from_str [48, 48, 48, 48, 48, 48, 48, 48, 48, 48, 48, 48, 48, 48, 122]
        = Except.error AddressError.NotEnough
    ∧ (hex_to_u8 122 = none
        ∧ (sepFilter [48, 48, 48, 48, 48, 48, 48, 48, 48, 48, 48, 48, 48, 48, 122]).getD 14 0
            = 122) := by
  exact ⟨by rfl, by rfl, by rfl, by rfl, by rfl⟩

/-- C7 (amended): after discarding whitespace and `':'` separators, parsing
looks only at the first 16 remaining characters: it succeeds exactly when
at least 16 characters remain and the first 16 are all hex digits (any
further characters are ignored); when it fails, the error is `NotEnough`
exactly when fewer than 16 characters remain and every character of a
complete leading pair is a hex digit, and `Invalid` otherwise (a complete
pair containing a non-hex character is reached first). -/
theorem address_parse_classification (s : List Nat) :
    ((from_str s).isOk = true
      ↔ (16 ≤ (sepFilter s).length
          ∧ ∀ j < 16, (hex_to_u8 ((sepFilter s).getD j 0)).isSome = true))
    ∧ (from_str s = Except.error AddressError.NotEnough
      ↔ ((sepFilter s).length < 16
          ∧ ∀ j < (sepFilter s).length - (sepFilter s).length % 2,
              (hex_to_u8 ((sepFilter s).getD j 0)).isSome = true))
    ∧ (from_str s = Except.error AddressError.Invalid
      ↔ (¬ (16 ≤ (sepFilter s).length
            ∧ ∀ j < 16, (hex_to_u8 ((sepFilter s).getD j 0)).isSome = true)
          ∧ ¬ ((sepFilter s).length < 16
            ∧ ∀ j < (sepFilter s).length - (sepFilter s).length % 2,
                (hex_to_u8 ((sepFilter s).getD j 0)).isSome = true))) := by
  obtain ⟨hOk, hNE⟩ := parsePairs_classify 8 (sepFilter s)
  have h16 : 2 * 8 = 16 := rfl
  have hfs : from_str s = parsePairs 8 (sepFilter s) := rfl
  rw [h16, ← hfs] at hOk hNE
  refine ⟨hOk, hNE, ?_⟩
  rcases hres : from_str s with e | bs
  · cases e
    case NotEnough =>
      rw [hres] at hNE
      constructor
      · intro hc
        cases hc
      · rintro ⟨-, hnot⟩
        exact absurd (hNE.mp rfl) hnot
    case Invalid =>
      rw [hres] at hOk hNE
      refine (iff_of_true rfl ⟨?_, ?_⟩)
      · intro hc
        have : (Except.error AddressError.Invalid
            : Except AddressError (List Nat)).isOk = true := hOk.mpr hc
        cases this
      · intro hc
        have := hNE.mpr hc
        cases this
  · rw [hres] at hOk
    constructor
    · intro hc
      cases hc
    · rintro ⟨hnot, -⟩
      exact absurd (hOk.mp rfl) hnot

/-! ### Driver trace semantics (src/driver.rs)

The driver is embedded as a trace semantics: every GPIO primitive appends
an event to a trace, and an arbitrary *behaviour* decides, from the trace
so far, what each primitive observes (line level samples) and whether it
fails with a port error.  A `Driver` operation is a function from a trace
to a result paired with the extended trace; the Rust `?` operator is the
sequencing combinator `owBind`: it propagates the error while the hardware
trace produced so far remains. -/

/-- One GPIO event: drives, delays, and line-level samples with their
observed value. -/
inductive Ev
  | setHigh
  | setLow
  | delay (us : Nat)
  | sampleHigh (v : Bool)
  | sampleLow (v : Bool)
deriving DecidableEq, Repr

/-- A bus/GPIO behaviour: for each primitive, given the trace so far,
either a port error or (for the input pins) the observed level. -/
structure Beh (E : Type) where
  setHighR : List Ev → Option E
  setLowR : List Ev → Option E
  isHighR : List Ev → Except E Bool
  isLowR : List Ev → Except E Bool

/-- The crate's error taxonomy (`src/result.rs`). -/
inductive OwError (E : Type)
  | NotSupport
  | WireFault
  | NoPresence
  | CrcMismatch (computed expected : Nat)
  | FamilyCodeMismatch (expected actual : Nat)
  | PortError (e : E)
deriving DecidableEq, Repr

/-- The `?` operator: stop on an error, keeping the trace; otherwise
continue with the value and the trace. -/
def owBind {E α β : Type} (x : Except (OwError E) α × List Ev)
    (f : α → List Ev → Except (OwError E) β × List Ev) :
    Except (OwError E) β × List Ev :=
  match x with
  | (Except.error e, t) => (Except.error e, t)
  | (Except.ok v, t) => f v t

theorem owBind_ok {E α β : Type} (v : α) (t : List Ev)
    (f : α → List Ev → Except (OwError E) β × List Ev) :
    owBind (Except.ok v, t) f = f v t := rfl

theorem owBind_error {E α β : Type} (e : OwError E) (t : List Ev)
    (f : α → List Ev → Except (OwError E) β × List Ev) :
    owBind (Except.error e, t) f = (Except.error e, t) := rfl

theorem owBind_congr {E α β : Type} (x : Except (OwError E) α × List Ev)
    {f g : α → List Ev → Except (OwError E) β × List Ev}
    (h : ∀ v t, f v t = g v t) : owBind x f = owBind x g := by
  rcases x with ⟨e | v, t⟩
  · rfl
  · exact h v t

/-- `self.set_high()` — `PortError` wraps the GPIO error. -/
def setHighP {E : Type} (b : Beh E) (t : List Ev) : Except (OwError E) Unit × List Ev :=
  match b.setHighR t with
  | some e => (Except.error (OwError.PortError e), t)
  | none => (Except.ok (), t ++ [Ev.setHigh])

/-- `self.set_low()`. -/
def setLowP {E : Type} (b : Beh E) (t : List Ev) : Except (OwError E) Unit × List Ev :=
  match b.setLowR t with
  | some e => (Except.error (OwError.PortError e), t)
  | none => (Except.ok (), t ++ [Ev.setLow])

/-- `self.is_high()`. -/
def isHighP {E : Type} (b : Beh E) (t : List Ev) : Except (OwError E) Bool × List Ev :=
  match b.isHighR t with
  | Except.error e => (Except.error (OwError.PortError e), t)
  | Except.ok v => (Except.ok v, t ++ [Ev.sampleHigh v])

/-- `self.is_low()`. -/
def isLowP {E : Type} (b : Beh E) (t : List Ev) : Except (OwError E) Bool × List Ev :=
  match b.isLowR t with
  | Except.error e => (Except.error (OwError.PortError e), t)
  | Except.ok v => (Except.ok v, t ++ [Ev.sampleLow v])

/-- `delay.delay_us(us)` — infallible, leaves only a trace event. -/
def delayP (us : Nat) (t : List Ev) : List Ev := t ++ [Ev.delay us]

/-- The `for _ in 0..125` polling loop of `ensure_wire_high`, by remaining
iterations: sample `is_high`; on a high reading return; otherwise delay
2 µs and continue; `WireFault` when the iterations run out. -/
def ensureLoop {E : Type} (b : Beh E) : Nat → List Ev → Except (OwError E) Unit × List Ev
  | 0, t => (Except.error OwError.WireFault, t)
  | n + 1, t =>
    owBind (isHighP b t) (fun v t1 =>
      if v then (Except.ok (), t1) else ensureLoop b n (delayP 2 t1))

/-- `Driver::ensure_wire_high`. -/
def ensure_wire_high {E : Type} (b : Beh E) (t : List Ev) :
    Except (OwError E) Unit × List Ev :=
  ensureLoop b 125 t

/-- The `for _ in 0..7` presence-sampling loop of `reset`: delay 10 µs,
sample `is_low`, OR into the accumulator. -/
def presenceLoop {E : Type} (b : Beh E) :
    Nat → Bool → List Ev → Except (OwError E) Bool × List Ev
  | 0, p, t => (Except.ok p, t)
  | n + 1, p, t =>
    owBind (isLowP b (delayP 10 t)) (fun v t1 => presenceLoop b n (p || v) t1)

/-- `Driver::reset` from `src/driver.rs`. -/
def reset {E : Type} (b : Beh E) (t : List Ev) : Except (OwError E) Unit × List Ev :=
  owBind (setHighP b t) (fun _ t1 =>
  owBind (ensure_wire_high b t1) (fun _ t2 =>
  owBind (setLowP b t2) (fun _ t3 =>
  owBind (setHighP b (delayP 480 t3)) (fun _ t4 =>
  owBind (presenceLoop b 7 false t4) (fun presence t5 =>
    let t6 := delayP 410 t5
    if presence then (Except.ok (), t6) else (Except.error OwError.NoPresence, t6))))))

/-- `Driver::reset_presence`: `reset().map(|_| true).or_else(NoPresence ↦ Ok(false))`. -/
def reset_presence {E : Type} (b : Beh E) (t : List Ev) :
    Except (OwError E) Bool × List Ev :=
  match reset b t with
  | (Except.ok _, t1) => (Except.ok true, t1)
  | (Except.error OwError.NoPresence, t1) => (Except.ok false, t1)
  | (Except.error e, t1) => (Except.error e, t1)

/-- `Driver::write_bit`: drive low 10/65 µs, release, hold 55/5 µs. -/
def write_bit {E : Type} (b : Beh E) (high : Bool) (t : List Ev) :
    Except (OwError E) Unit × List Ev :=
  owBind (setLowP b t) (fun _ t1 =>
  owBind (setHighP b (delayP (if high then 10 else 65) t1)) (fun _ t2 =>
    (Except.ok (), delayP (if high then 55 else 5) t2)))

/-- `Driver::disable_parasite_mode`: drive low unless parasite mode was
requested. -/
def disable_parasite_mode {E : Type} (b : Beh E) (pm : Bool) (t : List Ev) :
    Except (OwError E) Unit × List Ev :=
  if pm then (Except.ok (), t) else setLowP b t

/-- The 8-bit LSB-first loop of `write_byte`. -/
def writeBitsLoop {E : Type} (b : Beh E) :
    Nat → Nat → List Ev → Except (OwError E) Unit × List Ev
  | 0, _, t => (Except.ok (), t)
  | n + 1, byte, t =>
    owBind (write_bit b ((byte &&& 0x01) == 0x01) t) (fun _ t1 =>
      writeBitsLoop b n (byte >>> 1) t1)

/-- `Driver::write_byte`. -/
def write_byte {E : Type} (b : Beh E) (byte : Nat) (pm : Bool) (t : List Ev) :
    Except (OwError E) Unit × List Ev :=
  owBind (writeBitsLoop b 8 byte t) (fun _ t1 => disable_parasite_mode b pm t1)

/-- `Driver::write_bytes`: every byte with per-byte parasite mode `false`,
then one final cleanup honouring the driver-level flag `pm`. -/
def write_bytes {E : Type} (b : Beh E) (pm : Bool) :
    List Nat → List Ev → Except (OwError E) Unit × List Ev
  | [], t => disable_parasite_mode b pm t
  | x :: xs, t =>
    owBind (write_byte b x false t) (fun _ t1 => write_bytes b pm xs t1)

/-- The `for i in 0..8` loop of `select`: address byte `i` with parasite
mode `pm && (i == 7)`; the numeric argument counts the remaining
iterations (`8 - i`). -/
def selectLoop {E : Type} (b : Beh E) (pm : Bool) (addr : List Nat) :
    Nat → Nat → List Ev → Except (OwError E) Unit × List Ev
  | 0, _, t => (Except.ok (), t)
  | fuel + 1, i, t =>
    owBind (write_byte b (addr.getD i 0) (pm && i == 7) t) (fun _ t1 =>
      selectLoop b pm addr fuel (i + 1) t1)

/-- `Driver::select`: MatchRom opcode 0x55 (with the driver flag), then the
8 address bytes. -/
def select {E : Type} (b : Beh E) (pm : Bool) (addr : List Nat) (t : List Ev) :
    Except (OwError E) Unit × List Ev :=
  owBind (write_byte b 0x55 pm t) (fun _ t1 => selectLoop b pm addr 8 0 t1)

/-- `Driver::skip`: SkipRom opcode 0xCC with the driver flag. -/
def skip {E : Type} (b : Beh E) (pm : Bool) (t : List Ev) :
    Except (OwError E) Unit × List Ev :=
  write_byte b 0xCC pm t

/-- `Driver::read_bit`: drive low 3 µs, release, wait 2 µs, sample, hold
61 µs (the hold delay runs even when the sample errored, as in the source,
where the sample's `Result` is returned only after the delay). -/
def read_bit {E : Type} (b : Beh E) (t : List Ev) : Except (OwError E) Bool × List Ev :=
  owBind (setLowP b t) (fun _ t1 =>
  owBind (setHighP b (delayP 3 t1)) (fun _ t2 =>
    let vt := isHighP b (delayP 2 t2)
    (vt.1, delayP 61 vt.2)))

/-- The 8-bit loop of `read_byte`: shift right, OR the sampled bit into the
top bit. -/
def readBitsLoop {E : Type} (b : Beh E) :
    Nat → Nat → List Ev → Except (OwError E) Nat × List Ev
  | 0, byte, t => (Except.ok byte, t)
  | n + 1, byte, t =>
    owBind (read_bit b t) (fun v t1 =>
      readBitsLoop b n (if v then byte >>> 1 ||| 0x80 else byte >>> 1) t1)

/-- `Driver::read_byte`. -/
def read_byte {E : Type} (b : Beh E) (t : List Ev) : Except (OwError E) Nat × List Ev :=
  readBitsLoop b 8 0 t

/-- `Driver::read_bytes` into a buffer of length `n`. -/
def read_bytes {E : Type} (b : Beh E) :
    Nat → List Ev → Except (OwError E) (List Nat) × List Ev
  | 0, t => (Except.ok [], t)
  | n + 1, t =>
    owBind (read_byte b t) (fun x t1 =>
    owBind (read_bytes b n t1) (fun xs t2 => (Except.ok (x :: xs), t2)))

/-- `Driver::reset_select_write_only` — note the source calls `select`
twice in a row. -/
def reset_select_write_only {E : Type} (b : Beh E) (pm : Bool) (addr ws : List Nat)
    (t : List Ev) : Except (OwError E) Unit × List Ev :=
  owBind (reset b t) (fun _ t1 =>
  owBind (select b pm addr t1) (fun _ t2 =>
  owBind (select b pm addr t2) (fun _ t3 =>
    write_bytes b pm ws t3)))

/-- `Driver::reset_select_read_only` — the source also calls `select`
twice in a row here. -/
def reset_select_read_only {E : Type} (b : Beh E) (pm : Bool) (addr : List Nat)
    (n : Nat) (t : List Ev) : Except (OwError E) (List Nat) × List Ev :=
  owBind (reset b t) (fun _ t1 =>
  owBind (select b pm addr t1) (fun _ t2 =>
  owBind (select b pm addr t2) (fun _ t3 =>
    read_bytes b n t3)))

/-! ### C3: the reset procedure, transcribed from the claim

`resetSpec` is written from the claim's wording, independently of the
source transcription `reset` above: release the line high; poll `is_high`
up to 125 times with a 2 µs delay after each failed poll, `WireFault` if
the line never reads high; drive low and delay 480 µs; release high;
sample `is_low` seven times, each sample preceded by a 10 µs delay, OR-ing
the samples together; delay 410 µs; `Ok(())` if any sample read low,
`NoPresence` if none did.  GPIO errors abort the procedure where they
occur. -/

/-- Claim wording: poll `is_high` up to `n` times, a 2 µs delay after each
failed poll, `WireFault` when the line never reads high. -/
def pollHighUpTo {E : Type} (b : Beh E) : Nat → List Ev → Except (OwError E) Unit × List Ev
  | 0, t => (Except.error OwError.WireFault, t)
  | n + 1, t =>
    owBind (isHighP b t) (fun v t1 =>
      if v then (Except.ok (), t1) else pollHighUpTo b n (delayP 2 t1))

/-- Claim wording: `n` samples of `is_low`, each preceded by a 10 µs delay,
OR-ed together. -/
def orLowSamples {E : Type} (b : Beh E) : Nat → Bool → List Ev → Except (OwError E) Bool × List Ev
  | 0, acc, t => (Except.ok acc, t)
  | n + 1, acc, t =>
    owBind (isLowP b (delayP 10 t)) (fun v t1 => orLowSamples b n (acc || v) t1)

/-- The reset procedure exactly as the claim states it. -/
def resetSpec {E : Type} (b : Beh E) (t : List Ev) : Except (OwError E) Unit × List Ev :=
  owBind (setHighP b t) (fun _ t1 =>
  owBind (pollHighUpTo b 125 t1) (fun _ t2 =>
  owBind (setLowP b t2) (fun _ t3 =>
  owBind (setHighP b (delayP 480 t3)) (fun _ t4 =>
  owBind (orLowSamples b 7 false t4) (fun anyLow t5 =>
    let t6 := delayP 410 t5
    if anyLow then (Except.ok (), t6) else (Except.error OwError.NoPresence, t6))))))

theorem pollHighUpTo_eq_ensureLoop {E : Type} (b : Beh E) :
    ∀ (n : Nat) (t : List Ev), pollHighUpTo b n t = ensureLoop b n t := by
  intro n
  induction n with
  | zero => intro t; rfl
  | succ n ih =>
    intro t
    show owBind (isHighP b t) _ = owBind (isHighP b t) _
    apply owBind_congr
    intro v t1
    cases v
    · exact ih (delayP 2 t1)
    · rfl

theorem orLowSamples_eq_presenceLoop {E : Type} (b : Beh E) :
    ∀ (n : Nat) (acc : Bool) (t : List Ev),
      orLowSamples b n acc t = presenceLoop b n acc t := by
  intro n
  induction n with
  | zero => intro acc t; rfl
  | succ n ih =>
    intro acc t
    show owBind (isLowP b (delayP 10 t)) _ = owBind (isLowP b (delayP 10 t)) _
    apply owBind_congr
    intro v t1
    exact ih (acc || v) t1

/-- C3: for every bus/GPIO behaviour and every starting trace,
`Driver::reset` performs exactly the claimed sequence — release high; poll
`is_high` up to 125 times with 2 µs delays after failed polls, `WireFault`
if the line never reads high; drive low, delay 480 µs; release high; seven
`is_low` samples each preceded by a 10 µs delay, OR-ed; delay 410 µs;
`Ok(())` iff any sample read low, else `NoPresence`. -/
theorem reset_eq_resetSpec {E : Type} (b : Beh E) (t : List Ev) :
    reset b t = resetSpec b t := by
  unfold reset resetSpec ensure_wire_high
  simp only [pollHighUpTo_eq_ensureLoop, orLowSamples_eq_presenceLoop]

/-- C6: for every bus/GPIO behaviour, `Driver::reset_presence` returns
`Ok(false)` exactly when `Driver::reset` on the same behaviour returns
`Err(NoPresence)`, returns `Ok(true)` exactly when `reset` returns
`Ok(())`, and returns every other error (`WireFault`, `PortError`, …)
unchanged; the hardware trace is the one `reset` leaves. -/
theorem reset_presence_spec {E : Type} (b : Beh E) (t : List Ev) :
    ((reset_presence b t).1 = Except.ok false
      ↔ (reset b t).1 = Except.error OwError.NoPresence)
    ∧ ((reset_presence b t).1 = Except.ok true ↔ (reset b t).1 = Except.ok ())
    ∧ (∀ e : OwError E, e ≠ OwError.NoPresence →
        ((reset_presence b t).1 = Except.error e ↔ (reset b t).1 = Except.error e))
    ∧ (reset_presence b t).2 = (reset b t).2 := by
  have hrp : reset_presence b t
      = match reset b t with
        | (Except.ok _, t1) => (Except.ok true, t1)
        | (Except.error OwError.NoPresence, t1) => (Except.ok false, t1)
        | (Except.error e, t1) => (Except.error e, t1) := rfl
  rcases h : reset b t with ⟨e | u, t1⟩
  · rw [hrp, h]
    cases e
    case NoPresence =>
      refine ⟨by simp, by simp, ?_, rfl⟩
      intro e' he'
      constructor
      · intro hc
        cases hc
      · intro hc
        injection hc with hc
        exact absurd hc.symm he'
    all_goals
      refine ⟨by simp, by simp, ?_, rfl⟩
    all_goals
      intro e' he'
      simp
  · rw [hrp, h]
    exact ⟨by simp, by simp, fun e' _ => by simp, rfl⟩

/-- A behaviour whose line always reads low and whose GPIO never fails:
`reset` runs the 125-poll watchdog to exhaustion and fails `WireFault`. -/
def behLow : Beh Unit where
  setHighR := fun _ => none
  setLowR := fun _ => none
  isHighR := fun _ => Except.ok false
  isLowR := fun _ => Except.ok false

/-- Witness for `reset_presence_spec`: on `behLow`, `reset` fails with
`WireFault` (≠ `NoPresence`) and `reset_presence` propagates it unchanged. -/
theorem reset_presence_spec_witness :
    ((OwError.WireFault : OwError Unit) ≠ OwError.NoPresence)
    ∧ ((reset_presence behLow []).1 = Except.error OwError.WireFault
        ↔ (reset behLow []).1 = Except.error OwError.WireFault)
    ∧ (reset behLow []).1 = Except.error OwError.WireFault :=
  ⟨by decide,
    (reset_presence_spec behLow []).2.2.1 OwError.WireFault (by decide),
    by rfl⟩

/-! ### C9: parasite-mode policy of the write path -/

/-- Behaviours whose GPIO drive operations never fail (the write path
performs no line reads, so under this hypothesis it is deterministic). -/
def noSetFail {E : Type} (b : Beh E) : Prop :=
  ∀ t, b.setHighR t = none ∧ b.setLowR t = none

theorem setLowP_ok {E : Type} {b : Beh E} (hb : noSetFail b) (t : List Ev) :
    setLowP b t = (Except.ok (), t ++ [Ev.setLow]) := by
  unfold setLowP
  rw [(hb t).2]

theorem setHighP_ok {E : Type} {b : Beh E} (hb : noSetFail b) (t : List Ev) :
    setHighP b t = (Except.ok (), t ++ [Ev.setHigh]) := by
  unfold setHighP
  rw [(hb t).1]

/-- The four events of one write slot. -/
def bitTrace (high : Bool) : List Ev :=
  [Ev.setLow, Ev.delay (if high then 10 else 65), Ev.setHigh,
    Ev.delay (if high then 55 else 5)]

/-- The events of the `n` low bits of a byte, LSB first. -/
def byteBitsTrace : Nat → Nat → List Ev
  | 0, _ => []
  | n + 1, byte => bitTrace ((byte &&& 0x01) == 0x01) ++ byteBitsTrace n (byte >>> 1)

/-- The events of one transmitted byte: 8 bit slots, then the parasite
cleanup (a low drive) exactly when parasite mode was not requested. -/
def byteTrace (byte : Nat) (pm : Bool) : List Ev :=
  byteBitsTrace 8 byte ++ (if pm then [] else [Ev.setLow])

theorem write_bit_trace {E : Type} {b : Beh E} (hb : noSetFail b) (high : Bool)
    (t : List Ev) : write_bit b high t = (Except.ok (), t ++ bitTrace high) := by
  unfold write_bit
  rw [setLowP_ok hb, owBind_ok, setHighP_ok hb, owBind_ok]
  unfold delayP bitTrace
  simp [List.append_assoc]

theorem writeBitsLoop_trace {E : Type} {b : Beh E} (hb : noSetFail b) :
    ∀ (n byte : Nat) (t : List Ev),
      writeBitsLoop b n byte t = (Except.ok (), t ++ byteBitsTrace n byte) := by
  intro n
  induction n with
  | zero => intro byte t; simp [writeBitsLoop, byteBitsTrace]
  | succ n ih =>
    intro byte t
    show owBind (write_bit b ((byte &&& 0x01) == 0x01) t) _ = _
    rw [write_bit_trace hb, owBind_ok, ih]
    simp [byteBitsTrace, List.append_assoc]

theorem disable_parasite_mode_trace {E : Type} {b : Beh E} (hb : noSetFail b)
    (pm : Bool) (t : List Ev) :
    disable_parasite_mode b pm t
      = (Except.ok (), t ++ (if pm then [] else [Ev.setLow])) := by
  unfold disable_parasite_mode
  cases pm
  · rw [setLowP_ok hb]
    simp
  · simp

theorem write_byte_trace {E : Type} {b : Beh E} (hb : noSetFail b) (byte : Nat)
    (pm : Bool) (t : List Ev) :
    write_byte b byte pm t = (Except.ok (), t ++ byteTrace byte pm) := by
  unfold write_byte
  rw [writeBitsLoop_trace hb, owBind_ok, disable_parasite_mode_trace hb]
  unfold byteTrace
  simp [List.append_assoc]

theorem write_bytes_trace {E : Type} {b : Beh E} (hb : noSetFail b) (pm : Bool) :
    ∀ (bs : List Nat) (t : List Ev),
      write_bytes b pm bs t
        = (Except.ok (), t ++ (bs.map (fun x => byteTrace x false)).flatten
            ++ (if pm then [] else [Ev.setLow])) := by
  intro bs
  induction bs with
  | nil =>
    intro t
    show disable_parasite_mode b pm t = _
    rw [disable_parasite_mode_trace hb]
    simp
  | cons x xs ih =>
    intro t
    show owBind (write_byte b x false t) _ = _
    rw [write_byte_trace hb, owBind_ok, ih]
    simp [List.append_assoc]

/-- The events of the 8 address bytes of `select`, from index `i` with
`fuel` bytes remaining. -/
def selectBytesTrace (pm : Bool) (addr : List Nat) : Nat → Nat → List Ev
  | 0, _ => []
  | fuel + 1, i =>
    byteTrace (addr.getD i 0) (pm && i == 7) ++ selectBytesTrace pm addr fuel (i + 1)

theorem selectLoop_trace {E : Type} {b : Beh E} (hb : noSetFail b) (pm : Bool)
    (addr : List Nat) : ∀ (fuel i : Nat) (t : List Ev),
    selectLoop b pm addr fuel i t
      = (Except.ok (), t ++ selectBytesTrace pm addr fuel i) := by
  intro fuel
  induction fuel with
  | zero => intro i t; simp [selectLoop, selectBytesTrace]
  | succ fuel ih =>
    intro i t
    show owBind (write_byte b (addr.getD i 0) (pm && i == 7) t) _ = _
    rw [write_byte_trace hb, owBind_ok, ih]
    simp [selectBytesTrace, List.append_assoc]

theorem select_trace {E : Type} {b : Beh E} (hb : noSetFail b) (pm : Bool)
    (addr : List Nat) (t : List Ev) :
    select b pm addr t
      = (Except.ok (), t ++ byteTrace 0x55 pm ++ selectBytesTrace pm addr 8 0) := by
  unfold select
  rw [write_byte_trace hb, owBind_ok, selectLoop_trace hb]

theorem selectBytesTrace_unfolded (pm : Bool) (addr : List Nat) :
    selectBytesTrace pm addr 8 0
      = byteTrace (addr.getD 0 0) false ++ byteTrace (addr.getD 1 0) false
        ++ byteTrace (addr.getD 2 0) false ++ byteTrace (addr.getD 3 0) false
        ++ byteTrace (addr.getD 4 0) false ++ byteTrace (addr.getD 5 0) false
        ++ byteTrace (addr.getD 6 0) false ++ byteTrace (addr.getD 7 0) pm := by
  simp [selectBytesTrace, List.append_assoc]

/-- C9: for every byte sequence, `write_bytes` transmits each byte with
per-byte parasite mode `false` — so each byte's slot sequence ends with the
master driving the line low once — and then performs one final cleanup that
drives the line low iff the driver-level `parasite_mode` flag is `false`;
`select` and `skip` request parasite mode on their final transmitted byte
exactly when the driver-level flag is set, so with the flag set their last
byte emits no trailing low drive and the line stays released high after the
last bit. -/
theorem write_parasite_spec {E : Type} (b : Beh E) (hb : noSetFail b) :
    (∀ (pm : Bool) (bs : List Nat) (t : List Ev),
      write_bytes b pm bs t
        = (Except.ok (), t ++ (bs.map (fun x => byteTrace x false)).flatten
            ++ (if pm then [] else [Ev.setLow])))
    ∧ (∀ x : Nat, byteTrace x false = byteBitsTrace 8 x ++ [Ev.setLow]
        ∧ byteTrace x true = byteBitsTrace 8 x)
    ∧ (∀ (pm : Bool) (t : List Ev), skip b pm t = (Except.ok (), t ++ byteTrace 0xCC pm))
    ∧ (∀ (pm : Bool) (addr : List Nat) (t : List Ev),
        select b pm addr t
          = (Except.ok (), t ++ byteTrace 0x55 pm
              ++ (byteTrace (addr.getD 0 0) false ++ byteTrace (addr.getD 1 0) false
                ++ byteTrace (addr.getD 2 0) false ++ byteTrace (addr.getD 3 0) false
                ++ byteTrace (addr.getD 4 0) false ++ byteTrace (addr.getD 5 0) false
                ++ byteTrace (addr.getD 6 0) false ++ byteTrace (addr.getD 7 0) pm))) := by
  refine ⟨write_bytes_trace hb, ?_, ?_, ?_⟩
  · intro x
    constructor
    · simp [byteTrace]
    · simp [byteTrace]
  · intro pm t
    exact write_byte_trace hb 0xCC pm t
  · intro pm addr t
    rw [select_trace hb, selectBytesTrace_unfolded]

/-- Witness for `write_parasite_spec`: the all-ok, line-low behaviour
`behLow` never fails a drive, and e.g. `write_bytes` with the flag set on
the byte list `[0xAB]` produces the stated trace. -/
theorem write_parasite_spec_witness :
    noSetFail behLow
    ∧ write_bytes behLow true [0xAB] []
      = (Except.ok (), ([] : List Ev) ++ (([0xAB] : List Nat).map
          (fun x => byteTrace x false)).flatten ++ (if true then [] else [Ev.setLow])) :=
  ⟨fun _ => ⟨rfl, rfl⟩,
    (write_parasite_spec behLow (fun _ => ⟨rfl, rfl⟩)).1 true [0xAB] []⟩

/-! ### C8: compound select transactions -/

/-- A behaviour whose line always reads high on `is_high`, low on `is_low`,
and whose GPIO never fails: reset sees presence immediately. -/
def behAll : Beh Unit where
  setHighR := fun _ => none
  setLowR := fun _ => none
  isHighR := fun _ => Except.ok true
  isLowR := fun _ => Except.ok true

/-- The address used for concrete evaluations. -/
def demoAddr : List Nat := [0x01, 0x22, 0x8f, 0xf9, 0x08, 0x00, 0x01, 0x68]

theorem behAll_noSetFail : noSetFail behAll := fun _ => ⟨rfl, rfl⟩

theorem behAll_isHighR (t : List Ev) : behAll.isHighR t = Except.ok true := rfl

/-- Sequencing through a step already known to succeed. -/
theorem owBind_of_ok {E α β : Type} {x : Except (OwError E) α × List Ev} {v : α}
    (h : x.1 = Except.ok v) (f : α → List Ev → Except (OwError E) β × List Ev) :
    owBind x f = f v x.2 := by
  rcases x with ⟨r | w, t⟩
  · exact absurd h (by simp)
  · have hw : w = v := by simpa using h
    rw [hw]
    rfl

theorem reset_behAll_fst : (reset behAll []).1 = Except.ok () := by rfl

/-- The six events of one read slot under `behAll` (the sample reads high). -/
def readBitEvs : List Ev :=
  [Ev.setLow, Ev.delay 3, Ev.setHigh, Ev.delay 2, Ev.sampleHigh true, Ev.delay 61]

theorem read_bit_behAll (t : List Ev) :
    read_bit behAll t = (Except.ok true, t ++ readBitEvs) := by
  unfold read_bit isHighP
  rw [setLowP_ok behAll_noSetFail, owBind_ok, setHighP_ok behAll_noSetFail, owBind_ok,
    behAll_isHighR]
  unfold delayP readBitEvs
  simp [List.append_assoc]

/-- The byte value accumulated by the read loop when every bit reads 1. -/
def readAllVal : Nat → Nat → Nat
  | 0, byte => byte
  | n + 1, byte => readAllVal n (byte >>> 1 ||| 0x80)

theorem readBitsLoop_behAll : ∀ (n byte : Nat) (t : List Ev),
    readBitsLoop behAll n byte t
      = (Except.ok (readAllVal n byte), t ++ (List.replicate n readBitEvs).flatten) := by
  intro n
  induction n with
  | zero =>
    intro byte t
    simp [readBitsLoop, readAllVal]
  | succ n ih =>
    intro byte t
    show owBind (read_bit behAll t) _ = _
    rw [read_bit_behAll, owBind_ok]
    simp [ih, readAllVal, List.replicate_succ, List.append_assoc]

theorem read_byte_behAll (t : List Ev) :
    read_byte behAll t
      = (Except.ok (readAllVal 8 0), t ++ (List.replicate 8 readBitEvs).flatten) := by
  unfold read_byte
  exact readBitsLoop_behAll 8 0 t

theorem read_bytes_behAll : ∀ (n : Nat) (t : List Ev),
    read_bytes behAll n t
      = (Except.ok (List.replicate n (readAllVal 8 0)),
          t ++ (List.replicate n (List.replicate 8 readBitEvs).flatten).flatten) := by
  intro n
  induction n with
  | zero =>
    intro t
    simp [read_bytes]
  | succ n ih =>
    intro t
    show owBind (read_byte behAll t) _ = _
    rw [read_byte_behAll, owBind_ok]
    simp [ih, owBind_ok, List.replicate_succ, List.append_assoc]

/-- C8: evaluated on a concrete presence-answering behaviour,
`reset_select_write_only` (resp. `reset_select_read_only`) emits the
MatchRom select sequence TWICE after its reset — the trace is
reset ++ select ++ select ++ payload, and the select block is non-empty —
contradicting the claim that the select sequence is emitted exactly once
per reset.  (`reset_select_write_read`, by contrast, selects once; the
source's double call is a copy-paste slip the spec itself flags as
suspect.) -/
theorem reset_select_only_selects_twice :
    (reset_select_write_only behAll false demoAddr [0x44] []).2
      = (reset behAll []).2
        ++ (select behAll false demoAddr []).2
        ++ (select behAll false demoAddr []).2
        ++ (write_bytes behAll false [0x44] []).2
    ∧ (select behAll false demoAddr []).2 ≠ []
    ∧ (reset_select_read_only behAll false demoAddr 9 []).2
      = (reset behAll []).2
        ++ (select behAll false demoAddr []).2
        ++ (select behAll false demoAddr []).2
        ++ (read_bytes behAll 9 []).2 := by
  refine ⟨?_, ?_, ?_⟩
  · show (reset_select_write_only behAll false demoAddr [0x44] []).2 = _
    unfold reset_select_write_only
    rw [owBind_of_ok reset_behAll_fst]
    simp [select_trace behAll_noSetFail, owBind_ok, write_bytes_trace behAll_noSetFail,
      List.append_assoc]
  · rw [select_trace behAll_noSetFail]
    simp [byteTrace, byteBitsTrace, bitTrace]
  · show (reset_select_read_only behAll false demoAddr 9 []).2 = _
    unfold reset_select_read_only
    rw [owBind_of_ok reset_behAll_fst]
    simp [select_trace behAll_noSetFail, owBind_ok, read_bytes_behAll,
      List.append_assoc]


/-! ### Device search (src/search.rs)

`DeviceSearch` keeps two 8-byte bitmaps (`address`, `discrepancies`) and a
tri-state.  The bit helpers guard against out-of-range bit indices exactly
as the source does (`if bit / 8 >= array.len() { return ... }`); the `u8`
complement `!(0x01 << offset)` is `255 ^^^ (1 <<< offset)`.

The search protocol itself is run against a simulated bus holding a finite
list of ROMs (each a `wellFormedBytes` 8-byte array):  after a reset with a
presence answer (the bus is non-empty) and the search opcode, every device
is active; each bit slot pair reads the wired-AND of the active devices'
bit and complement bit (an empty active set reads `(1, 1)` since the
released line floats high), and the master's directing write bit
deactivates every device whose bit disagrees. -/

/-- `DeviceSearch::is_bit_set` from `src/search.rs`. -/
def is_bit_set (array : List Nat) (bit : Nat) : Bool :=
  if array.length ≤ bit / 8 then false
  else (array.getD (bit / 8) 0 &&& (1 <<< (bit % 8))) != 0

/-- `DeviceSearch::set_bit`. -/
def set_bit (array : List Nat) (bit : Nat) : List Nat :=
  if array.length ≤ bit / 8 then array
  else array.set (bit / 8) (array.getD (bit / 8) 0 ||| (1 <<< (bit % 8)))

/-- `DeviceSearch::reset_bit`. -/
def reset_bit (array : List Nat) (bit : Nat) : List Nat :=
  if array.length ≤ bit / 8 then array
  else array.set (bit / 8) (array.getD (bit / 8) 0 &&& (255 ^^^ (1 <<< (bit % 8))))

/-- `DeviceSearch::write_bit` (on an array). -/
def write_bit_in (array : List Nat) (bit : Nat) (value : Bool) : List Nat :=
  if value then set_bit array bit else reset_bit array bit

/-- `DeviceSearch::last_discrepancy`: scan indices `0..64`, remembering the
last set one. -/
def last_discrepancy (disc : List Nat) : Option Nat :=
  (List.range 64).foldl (fun acc i => if is_bit_set disc i then some i else acc) none

/-- `SearchState` from `src/search.rs` (`Initialized`/`DeviceFound`/`End`). -/
inductive SearchState
  | Initial
  | DeviceFound
  | End
deriving DecidableEq, Repr

/-- The `DeviceSearch` cursor. -/
structure DeviceSearch where
  address : List Nat
  discrepancies : List Nat
  state : SearchState
deriving DecidableEq, Repr

/-- `DeviceSearch::new()` — all-zero bitmaps, freshly constructed state. -/
def DeviceSearch.new : DeviceSearch :=
  ⟨List.replicate 8 0, List.replicate 8 0, SearchState.Initial⟩

/-- The first read slot of a search step: wired-AND of the active devices'
bit `i` (`true` when every active device has a 1, or no device is active). -/
def searchBit0 (active : List (List Nat)) (i : Nat) : Bool :=
  active.all (fun r => is_bit_set r i)

/-- The second read slot: wired-AND of the active devices' complement bits. -/
def searchBit1 (active : List (List Nat)) (i : Nat) : Bool :=
  active.all (fun r => !is_bit_set r i)

/-- The master's directing write bit: devices whose bit `i` differs from
the written value drop out of the search. -/
def busFilter (active : List (List Nat)) (i : Nat) (v : Bool) : List (List Nat) :=
  active.filter (fun r => is_bit_set r i == v)

/-- The replay phase of `Driver::search` (`for i in 0..last_discrepancy`):
re-read both slots, abort on `(1,1)`, and re-write the stored address bit;
`fuel` counts the remaining iterations (`L - i`). -/
def replayLoop (addr : List Nat) : Nat → Nat → List (List Nat) → Option (List (List Nat))
  | 0, _, active => some active
  | fuel + 1, i, active =>
    let bit0 := searchBit0 active i
    let bit1 := searchBit1 active i
    if bit0 && bit1 then none
    else replayLoop addr fuel (i + 1) (busFilter active i (is_bit_set addr i))

/-- The branch phase of `Driver::search`
(`for i in last_discrepancy.unwrap_or(0)..64`), with `fuel = 64 - i`.
Returns the updated cursor, the `discrepancy_found` flag, and whether the
iteration aborted on a `(1,1)` read.  At `i = last_discrepancy` the search
forces a 1 (taking the sibling branch) and clears that discrepancy bit; a
fresh `(0,0)` discrepancy records the bit and takes the 0 branch; otherwise
the forced bit is written back into the address. -/
def branchLoop (ld : Option Nat) :
    Nat → Nat → List (List Nat) → DeviceSearch → Bool → DeviceSearch × Bool × Bool
  | 0, _, _, rom, df => (rom, df, false)
  | fuel + 1, i, active, rom, df =>
    let bit0 := searchBit0 active i
    let bit1 := searchBit1 active i
    if ld = some i then
      branchLoop ld fuel (i + 1) (busFilter active i true)
        { rom with
          discrepancies := reset_bit rom.discrepancies i
          address := set_bit rom.address i } df
    else if bit0 && bit1 then (rom, df, true)
    else if !bit0 && !bit1 then
      branchLoop ld fuel (i + 1) (busFilter active i false)
        { rom with
          discrepancies := set_bit rom.discrepancies i
          address := reset_bit rom.address i } true
    else
      branchLoop ld fuel (i + 1) (busFilter active i bit0)
        { rom with address := write_bit_in rom.address i bit0 } df

/-- The epilogue of `Driver::search`: an aborted iteration returns `None`
with the cursor as mutated so far and the state untouched; a completed one
sets the state (`End` when no discrepancy was found and none is left,
`DeviceFound` otherwise) and returns the address. -/
def searchFinish : DeviceSearch × Bool × Bool → DeviceSearch × Option (List Nat)
  | (rom, df, aborted) =>
    if aborted then (rom, none)
    else
      let rom1 := { rom with
        state := if !df && (last_discrepancy rom.discrepancies).isNone
          then SearchState.End else SearchState.DeviceFound }
      (rom1, some rom1.address)

/-- `Driver::search` over the simulated bus: one `search_next` call. -/
def searchCore (bus : List (List Nat)) (rom : DeviceSearch) :
    DeviceSearch × Option (List Nat) :=
  if rom.state = SearchState.End then (rom, none)
  else
    let ld := last_discrepancy rom.discrepancies
    if bus.isEmpty then (rom, none)
    else
      match ld with
      | some L =>
        match replayLoop rom.address L 0 bus with
        | none => (rom, none)
        | some active => searchFinish (branchLoop (some L) (64 - L) L active rom false)
      | none =>
        if rom.state = SearchState.DeviceFound then
          ({ rom with state := SearchState.End }, none)
        else searchFinish (branchLoop none 64 0 bus rom false)

/-- Repeatedly call `search_next`, collecting the reported addresses until
the first `None` (or until the fuel runs out). -/
def searchAll (bus : List (List Nat)) : DeviceSearch → Nat → List (List Nat)
  | _, 0 => []
  | rom, fuel + 1 =>
    match searchCore bus rom with
    | (rom1, some a) => a :: searchAll bus rom1 fuel
    | (_, none) => []

/-! ### Bit-level facts about the search bitmaps -/

/-- A well-formed 8-byte array: length 8, every entry a byte. -/
def wfBytes (l : List Nat) : Prop := l.length = 8 ∧ ∀ x ∈ l, x < 256

instance wfBytes.dec (l : List Nat) : Decidable (wfBytes l) := by
  unfold wfBytes
  infer_instance

theorem wfBytes_getD_lt {l : List Nat} (hl : wfBytes l) (j : Nat) : l.getD j 0 < 256 := by
  by_cases hj : j < l.length
  · rw [List.getD_eq_getElem l 0 hj]
    exact hl.2 _ (List.getElem_mem hj)
  · rw [List.getD_eq_default l 0 (by omega)]
    omega

theorem and_shift_bne (x o : Nat) : ((x &&& (1 <<< o)) != 0) = x.testBit o := by
  rw [Nat.one_shiftLeft, Nat.and_two_pow]
  rcases h : x.testBit o with _ | _
  · simp
  · simp [(Nat.two_pow_pos o).ne']

theorem is_bit_set_testBit {l : List Nat} (hl : l.length = 8) {k : Nat} (hk : k < 64) :
    is_bit_set l k = (l.getD (k / 8) 0).testBit (k % 8) := by
  unfold is_bit_set
  rw [if_neg (by omega), and_shift_bne]

theorem is_bit_set_oob {l : List Nat} (hl : l.length = 8) {k : Nat} (hk : 64 ≤ k) :
    is_bit_set l k = false := by
  unfold is_bit_set
  rw [if_pos (by omega)]

theorem getD_set_self {l : List Nat} {i : Nat} (v : Nat) (h : i < l.length) :
    (l.set i v).getD i 0 = v := by
  rw [List.getD_eq_getElem _ 0 (by simpa using h)]
  exact List.getElem_set_self _

theorem getD_set_ne {l : List Nat} {i j : Nat} (v : Nat) (h : i ≠ j) :
    (l.set i v).getD j 0 = l.getD j 0 := by
  by_cases hj : j < l.length
  · rw [List.getD_eq_getElem _ 0 (by simpa using hj), List.getD_eq_getElem _ 0 hj]
    exact List.getElem_set_ne h _
  · rw [List.getD_eq_default _ 0 (by simp; omega), List.getD_eq_default _ 0 (by omega)]

theorem set_bit_wf {l : List Nat} (hl : wfBytes l) {k : Nat} (hk : k < 64) :
    wfBytes (set_bit l k) := by
  obtain ⟨hL, hB⟩ := hl
  unfold set_bit
  rw [if_neg (by omega)]
  refine ⟨by simpa using hL, ?_⟩
  intro x hx
  rcases List.mem_or_eq_of_mem_set hx with hx | rfl
  · exact hB x hx
  · have h1 : l.getD (k / 8) 0 < 256 := wfBytes_getD_lt ⟨hL, hB⟩ _
    have h2 : (1 <<< (k % 8) : Nat) < 256 := by
      rw [Nat.one_shiftLeft]
      calc (2:Nat) ^ (k % 8) ≤ 2 ^ 7 := Nat.pow_le_pow_right (by omega) (by omega)
      _ < 256 := by omega
    exact Nat.or_lt_two_pow (n := 8) h1 h2

theorem reset_bit_wf {l : List Nat} (hl : wfBytes l) {k : Nat} (hk : k < 64) :
    wfBytes (reset_bit l k) := by
  obtain ⟨hL, hB⟩ := hl
  unfold reset_bit
  rw [if_neg (by omega)]
  refine ⟨by simpa using hL, ?_⟩
  intro x hx
  rcases List.mem_or_eq_of_mem_set hx with hx | rfl
  · exact hB x hx
  · calc l.getD (k / 8) 0 &&& (255 ^^^ (1 <<< (k % 8))) ≤ l.getD (k / 8) 0 :=
      Nat.and_le_left
    _ < 256 := wfBytes_getD_lt ⟨hL, hB⟩ _

theorem set_bit_length {l : List Nat} (hl : l.length = 8) {k : Nat} (hk : k < 64) :
    (set_bit l k).length = 8 := by
  unfold set_bit
  rw [if_neg (by omega)]
  simpa using hl

theorem reset_bit_length {l : List Nat} (hl : l.length = 8) {k : Nat} (hk : k < 64) :
    (reset_bit l k).length = 8 := by
  unfold reset_bit
  rw [if_neg (by omega)]
  simpa using hl

theorem is_bit_set_set_bit {l : List Nat} (hl : l.length = 8) {k : Nat} (hk : k < 64)
    {j : Nat} (hj : j < 64) :
    is_bit_set (set_bit l k) j = ((j == k) || is_bit_set l j) := by
  rw [is_bit_set_testBit (set_bit_length hl hk) hj, is_bit_set_testBit hl hj]
  unfold set_bit
  rw [if_neg (by omega)]
  by_cases hbyte : k / 8 = j / 8
  · rw [← hbyte, getD_set_self _ (by omega), Nat.testBit_lor, Nat.one_shiftLeft,
      Nat.testBit_two_pow]
    by_cases hjk : j = k
    · subst hjk
      simp
    · have hmodne : ¬ (k % 8 = j % 8) := by omega
      simp [hmodne, hjk, Bool.or_comm]
  · rw [getD_set_ne _ hbyte]
    have hjk : ¬ (j = k) := by omega
    simp [hjk]

theorem is_bit_set_reset_bit {l : List Nat} (hl : l.length = 8) {k : Nat} (hk : k < 64)
    {j : Nat} (hj : j < 64) :
    is_bit_set (reset_bit l k) j = (!(j == k) && is_bit_set l j) := by
  rw [is_bit_set_testBit (reset_bit_length hl hk) hj, is_bit_set_testBit hl hj]
  unfold reset_bit
  rw [if_neg (by omega)]
  by_cases hbyte : k / 8 = j / 8
  · rw [← hbyte, getD_set_self _ (by omega), Nat.testBit_land, Nat.one_shiftLeft,
      Nat.testBit_xor, show (255 : Nat) = 2 ^ 8 - 1 from by norm_num,
      Nat.testBit_two_pow_sub_one, Nat.testBit_two_pow]
    have hmod : j % 8 < 8 := by omega
    by_cases hjk : j = k
    · subst hjk
      simp [hmod]
    · have hmodne : ¬ (k % 8 = j % 8) := by omega
      simp [hmodne, hjk, hmod, Bool.and_comm]
  · rw [getD_set_ne _ hbyte]
    have hjk : ¬ (j = k) := by omega
    simp [hjk]

/-- Two well-formed 8-byte arrays with the same 64 bits are equal. -/
theorem wfBytes_ext {l1 l2 : List Nat} (h1 : wfBytes l1) (h2 : wfBytes l2)
    (h : ∀ j < 64, is_bit_set l1 j = is_bit_set l2 j) : l1 = l2 := by
  obtain ⟨hL1, hB1⟩ := h1
  obtain ⟨hL2, hB2⟩ := h2
  apply List.ext_getElem (by rw [hL1, hL2])
  intro k hk1 hk2
  have hk : k < 8 := by omega
  apply Nat.eq_of_testBit_eq
  intro o
  by_cases ho : o < 8
  · have hj := h (8 * k + o) (by omega)
    rw [is_bit_set_testBit hL1 (by omega), is_bit_set_testBit hL2 (by omega)] at hj
    have hdiv : (8 * k + o) / 8 = k := by omega
    have hmod : (8 * k + o) % 8 = o := by omega
    rw [hdiv, hmod, List.getD_eq_getElem l1 0 hk1, List.getD_eq_getElem l2 0 hk2] at hj
    exact hj
  · have hb1 : l1[k] < 256 := hB1 _ (List.getElem_mem hk1)
    have hb2 : l2[k] < 256 := hB2 _ (List.getElem_mem hk2)
    have hpow : (256 : Nat) ≤ 2 ^ o := by
      calc (256 : Nat) = 2 ^ 8 := by norm_num
      _ ≤ 2 ^ o := Nat.pow_le_pow_right (by omega) (by omega)
    rw [Nat.testBit_eq_false_of_lt (lt_of_lt_of_le hb1 hpow),
      Nat.testBit_eq_false_of_lt (lt_of_lt_of_le hb2 hpow)]

/-- `last_discrepancy` truncated to the first `n` indices. -/
def ldAux (d : List Nat) (n : Nat) : Option Nat :=
  (List.range n).foldl (fun acc i => if is_bit_set d i then some i else acc) none

theorem last_discrepancy_eq_ldAux (d : List Nat) : last_discrepancy d = ldAux d 64 := rfl

theorem ldAux_succ (d : List Nat) (n : Nat) :
    ldAux d (n + 1) = if is_bit_set d n then some n else ldAux d n := by
  unfold ldAux
  rw [List.range_succ, List.foldl_append]
  rfl

theorem ldAux_none (d : List Nat) :
    ∀ n, (ldAux d n = none ↔ ∀ i < n, is_bit_set d i = false) := by
  intro n
  induction n with
  | zero => simp [ldAux]
  | succ n ih =>
    rw [ldAux_succ]
    rcases hb : is_bit_set d n with _ | _
    · rw [if_neg (by simp), ih]
      constructor
      · intro h i hi
        rcases Nat.lt_succ_iff_lt_or_eq.mp hi with hi | rfl
        · exact h i hi
        · exact hb
      · intro h i hi
        exact h i (by omega)
    · rw [if_pos rfl]
      constructor
      · intro h
        cases h
      · intro h
        exact absurd (h n (by omega)) (by simp [hb])

theorem ldAux_some (d : List Nat) :
    ∀ n i, ldAux d n = some i →
      is_bit_set d i = true ∧ i < n ∧ ∀ j, i < j → j < n → is_bit_set d j = false := by
  intro n
  induction n with
  | zero =>
    intro i h
    simp [ldAux] at h
  | succ n ih =>
    intro i h
    rw [ldAux_succ] at h
    rcases hb : is_bit_set d n with _ | _
    · rw [if_neg (by simp [hb])] at h
      obtain ⟨h1, h2, h3⟩ := ih i h
      refine ⟨h1, by omega, ?_⟩
      intro j hj1 hj2
      rcases Nat.lt_succ_iff_lt_or_eq.mp hj2 with hj | rfl
      · exact h3 j hj1 hj
      · exact hb
    · rw [if_pos hb] at h
      injection h with h
      subst h
      exact ⟨hb, by omega, fun j hj1 hj2 => by omega⟩

/-- C10: the `DeviceSearch` bit helpers are total and out-of-range safe:
for every bit index `b : u8` with `b ≥ 64` and every 8-byte array,
`is_bit_set` returns `false` and `set_bit`/`reset_bit` leave the array
unchanged; on arrays of any length the helpers never change the length
(they either take the guard's early return or update a checked in-range
index); and `last_discrepancy` scans indices 0..63 only, returning the
highest set discrepancy index below 64, or `None` exactly when no index
below 64 is set. -/
theorem search_bit_helpers_safe :
    (∀ (arr : List Nat) (b : Nat), arr.length = 8 → 64 ≤ b → b < 256 →
      is_bit_set arr b = false ∧ set_bit arr b = arr ∧ reset_bit arr b = arr)
    ∧ (∀ (arr : List Nat) (b : Nat),
        (set_bit arr b).length = arr.length ∧ (reset_bit arr b).length = arr.length)
    ∧ (∀ disc : List Nat,
        (∀ i, last_discrepancy disc = some i →
          i < 64 ∧ is_bit_set disc i = true ∧ ∀ j, i < j → j < 64 → is_bit_set disc j = false)
        ∧ (last_discrepancy disc = none ↔ ∀ i < 64, is_bit_set disc i = false)) := by
  refine ⟨?_, ?_, ?_⟩
  · intro arr b hlen hge _
    refine ⟨?_, ?_, ?_⟩
    · unfold is_bit_set
      rw [if_pos (by omega)]
    · unfold set_bit
      rw [if_pos (by omega)]
    · unfold reset_bit
      rw [if_pos (by omega)]
  · intro arr b
    constructor
    · unfold set_bit
      split
      · rfl
      · simp
    · unfold reset_bit
      split
      · rfl
      · simp
  · intro disc
    constructor
    · intro i h
      rw [last_discrepancy_eq_ldAux] at h
      obtain ⟨h1, h2, h3⟩ := ldAux_some disc 64 i h
      exact ⟨h2, h1, h3⟩
    · rw [last_discrepancy_eq_ldAux]
      exact ldAux_none disc 64

/-- Witness for `search_bit_helpers_safe`: the out-of-range statements at
the concrete array `[1,2,3,4,5,6,7,8]` and bit index 100. -/
theorem search_bit_helpers_safe_witness :
    ([1, 2, 3, 4, 5, 6, 7, 8] : List Nat).length = 8 ∧ (64 : Nat) ≤ 100 ∧ (100 : Nat) < 256
    ∧ (is_bit_set [1, 2, 3, 4, 5, 6, 7, 8] 100 = false
        ∧ set_bit [1, 2, 3, 4, 5, 6, 7, 8] 100 = [1, 2, 3, 4, 5, 6, 7, 8]
        ∧ reset_bit [1, 2, 3, 4, 5, 6, 7, 8] 100 = [1, 2, 3, 4, 5, 6, 7, 8]) :=
  ⟨by decide, by decide, by decide,
    search_bit_helpers_safe.1 [1, 2, 3, 4, 5, 6, 7, 8] 100 (by decide) (by decide) (by decide)⟩

/-! ### The search order

The search walks the binary trie of ROM bit strings, bit 0 first, taking
the 0 branch before the 1 branch at every discrepancy.  The visit order is
therefore the lexicographic order on bit strings read LSB-first:
`rlt a b` holds when at the lowest differing bit index `a` has 0. -/

/-- `r` and `a` have the same bits strictly below index `i`. -/
def agreeBelow (r a : List Nat) (i : Nat) : Prop :=
  ∀ j, j < i → is_bit_set r j = is_bit_set a j

instance agreeBelow.dec (r a : List Nat) (i : Nat) : Decidable (agreeBelow r a i) := by
  unfold agreeBelow
  infer_instance

theorem agreeBelow_refl (a : List Nat) (i : Nat) : agreeBelow a a i := fun _ _ => rfl

theorem agreeBelow_symm {r a : List Nat} {i : Nat} (h : agreeBelow r a i) :
    agreeBelow a r i := fun j hj => (h j hj).symm

theorem agreeBelow_mono {r a : List Nat} {i i' : Nat} (h : agreeBelow r a i)
    (hle : i' ≤ i) : agreeBelow r a i' := fun j hj => h j (by omega)

theorem agreeBelow_trans {r s t : List Nat} {i : Nat} (h1 : agreeBelow r s i)
    (h2 : agreeBelow s t i) : agreeBelow r t i :=
  fun j hj => (h1 j hj).trans (h2 j hj)

/-- The devices of `S` that agree with the cursor address `a` below bit `i`
(the active devices when the search reaches bit `i` along `a`). -/
def matchPre (S : List (List Nat)) (a : List Nat) (i : Nat) : List (List Nat) :=
  S.filter (fun r => decide (agreeBelow r a i))

theorem mem_matchPre {S : List (List Nat)} {a r : List Nat} {i : Nat} :
    r ∈ matchPre S a i ↔ r ∈ S ∧ agreeBelow r a i := by
  unfold matchPre
  rw [List.mem_filter]
  simp

theorem matchPre_zero (S : List (List Nat)) (a : List Nat) : matchPre S a 0 = S := by
  unfold matchPre
  apply List.filter_eq_self.mpr
  intro r _
  simp only [decide_eq_true_eq]
  intro j hj
  omega

/-- Filtering the active devices on bit `i` refines the prefix: if `a'`
agrees with `a` below `i` and has bit `i` equal to the written value `v`,
the surviving devices are exactly those agreeing with `a'` below `i + 1`. -/
theorem busFilter_matchPre {S : List (List Nat)} {a a' : List Nat} {i : Nat} {v : Bool}
    (hagree : ∀ j, j < i → is_bit_set a' j = is_bit_set a j)
    (hbit : is_bit_set a' i = v) :
    busFilter (matchPre S a i) i v = matchPre S a' (i + 1) := by
  unfold busFilter matchPre
  rw [List.filter_filter]
  apply List.filter_congr
  intro r _
  by_cases h1 : agreeBelow r a i
  · by_cases h2 : is_bit_set r i = v
    · have h3 : agreeBelow r a' (i + 1) := by
        intro j hj
        rcases Nat.lt_succ_iff_lt_or_eq.mp hj with hj | rfl
        · exact (h1 j hj).trans (hagree j hj).symm
        · rw [h2, hbit]
      simp [h1, h2, h3]
    · have h3 : ¬ agreeBelow r a' (i + 1) := by
        intro hc
        exact h2 ((hc i (by omega)).trans hbit)
      simp [h1, h2, h3]
  · have h3 : ¬ agreeBelow r a' (i + 1) := by
      intro hc
      exact h1 fun j hj => (hc j (by omega)).trans (hagree j hj)
    simp [h1, h3]

/-- `a` comes strictly before `b` in visit order, with the deciding bit at
index `≥ i`. -/
def rltFrom (i : Nat) (a b : List Nat) : Prop :=
  ∃ k, i ≤ k ∧ k < 64 ∧ agreeBelow a b k
    ∧ is_bit_set a k = false ∧ is_bit_set b k = true

/-- The visit order of the search: at the lowest differing bit index, `a`
has 0 and `b` has 1. -/
def rlt (a b : List Nat) : Prop := rltFrom 0 a b

instance rltFrom.dec (i : Nat) (a b : List Nat) : Decidable (rltFrom i a b) :=
  decidable_of_iff (∃ k ∈ List.range 64, i ≤ k ∧ agreeBelow a b k
    ∧ is_bit_set a k = false ∧ is_bit_set b k = true) (by
      unfold rltFrom
      constructor
      · rintro ⟨k, h1, h2, h3, h4, h5⟩
        exact ⟨k, h2, List.mem_range.mp h1, h3, h4, h5⟩
      · rintro ⟨k, h1, h2, h3, h4, h5⟩
        exact ⟨k, List.mem_range.mpr h2, h1, h3, h4, h5⟩)

instance rlt.dec (a b : List Nat) : Decidable (rlt a b) := by
  unfold rlt
  infer_instance

theorem rltFrom_rlt {i : Nat} {a b : List Nat} (h : rltFrom i a b) : rlt a b := by
  obtain ⟨k, _, hk, h1, h2, h3⟩ := h
  exact ⟨k, by omega, hk, h1, h2, h3⟩

theorem rlt_irrefl (a : List Nat) : ¬ rlt a a := by
  rintro ⟨k, -, -, -, h1, h2⟩
  rw [h1] at h2
  cases h2

theorem rlt_trans {a b c : List Nat} (hab : rlt a b) (hbc : rlt b c) : rlt a c := by
  obtain ⟨k1, -, hk1, hag1, ha1, hb1⟩ := hab
  obtain ⟨k2, -, hk2, hag2, hb2, hc2⟩ := hbc
  rcases Nat.lt_trichotomy k1 k2 with h | h | h
  · exact ⟨k1, by omega, hk1,
      agreeBelow_trans hag1 (agreeBelow_mono hag2 (by omega)), ha1,
      (hag2 k1 h).symm ▸ hb1⟩
  · subst h
    exact ⟨k1, by omega, hk1, agreeBelow_trans hag1 hag2, ha1, hc2⟩
  · refine ⟨k2, by omega, hk2,
      agreeBelow_trans (agreeBelow_mono hag1 (by omega)) hag2, ?_, hc2⟩
    rw [hag1 k2 h, hb2]

theorem rlt_asymm {a b : List Nat} (hab : rlt a b) (hba : rlt b a) : False :=
  rlt_irrefl a (rlt_trans hab hba)

/-! ### The replay phase -/

theorem replayLoop_spec {S : List (List Nat)} {a : List Nat} (ha : a ∈ S) :
    ∀ (fuel i : Nat), replayLoop a fuel i (matchPre S a i)
      = some (matchPre S a (i + fuel)) := by
  intro fuel
  induction fuel with
  | zero =>
    intro i
    simp [replayLoop]
  | succ fuel ih =>
    intro i
    have hmem : a ∈ matchPre S a i := mem_matchPre.mpr ⟨ha, agreeBelow_refl a i⟩
    have hguard : ¬ (searchBit0 (matchPre S a i) i && searchBit1 (matchPre S a i) i) = true := by
      intro hc
      rw [Bool.and_eq_true] at hc
      have h0 := List.all_eq_true.mp hc.1 a hmem
      have h1 := List.all_eq_true.mp hc.2 a hmem
      rw [h0] at h1
      cases h1
    have hred : replayLoop a (fuel + 1) i (matchPre S a i)
        = replayLoop a fuel (i + 1) (busFilter (matchPre S a i) i (is_bit_set a i)) := by
      simp only [replayLoop]
      rw [if_neg hguard]
    rw [hred, busFilter_matchPre (fun j _ => rfl) rfl, ih (i + 1)]
    congr 2
    omega

/-! ### The branch phase -/

theorem rltFrom_weaken {i i' : Nat} {a b : List Nat} (h : rltFrom i' a b)
    (hle : i ≤ i') : rltFrom i a b := by
  obtain ⟨k, hk1, hk2, h1, h2, h3⟩ := h
  exact ⟨k, by omega, hk2, h1, h2, h3⟩

theorem beq_false_of_ne {j i : Nat} (h : j ≠ i) : (j == i) = false := by
  simpa using h

/-- Everything the branch phase guarantees when it starts at bit `i` with
the active devices `matchPre S rom.address i` non-empty: it never aborts,
its result address is a device of `S` — the least one, in visit order, to
extend the prefix — and its discrepancy bitmap records, at every position
`≥ i`, exactly the pending 1-branches. -/
structure BranchOut (S : List (List Nat)) (i : Nat) (rom : DeviceSearch) (df : Bool)
    (out : DeviceSearch × Bool × Bool) : Prop where
  no_abort : out.2.2 = false
  wf_addr : wfBytes out.1.address
  wf_disc : wfBytes out.1.discrepancies
  state_eq : out.1.state = rom.state
  addr_low : ∀ j, j < i → is_bit_set out.1.address j = is_bit_set rom.address j
  disc_low : ∀ j, j < i → is_bit_set out.1.discrepancies j = is_bit_set rom.discrepancies j
  mem : out.1.address ∈ S
  is_min : ∀ r, r ∈ S → agreeBelow r rom.address i → r ≠ out.1.address →
    rltFrom i out.1.address r
  disc_iff : ∀ j, i ≤ j → j < 64 →
    (is_bit_set out.1.discrepancies j = true
      ↔ (is_bit_set out.1.address j = false
          ∧ ∃ r, r ∈ S ∧ agreeBelow r out.1.address j ∧ is_bit_set r j = true))
  df_iff : out.2.1 = true
    ↔ (df = true ∨ ∃ j, i ≤ j ∧ j < 64 ∧ is_bit_set out.1.discrepancies j = true)

theorem branchLoop_spec {S : List (List Nat)} (hS : ∀ r ∈ S, wfBytes r) (ld : Option Nat) :
    ∀ (fuel i : Nat) (rom : DeviceSearch) (df : Bool),
      i + fuel = 64 →
      wfBytes rom.address →
      wfBytes rom.discrepancies →
      matchPre S rom.address i ≠ [] →
      (∀ j, i ≤ j → ld ≠ some j) →
      (∀ j, i ≤ j → j < 64 → is_bit_set rom.discrepancies j = false) →
      BranchOut S i rom df (branchLoop ld fuel i (matchPre S rom.address i) rom df) := by
  intro fuel
  induction fuel with
  | zero =>
    intro i rom df hfuel hwa hwd hne hld hdisc
    have hi : i = 64 := by omega
    subst hi
    refine ⟨rfl, hwa, hwd, rfl, fun j _ => rfl, fun j _ => rfl, ?_, ?_, ?_, ?_⟩
    · show rom.address ∈ S
      obtain ⟨r, hr⟩ := List.exists_mem_of_ne_nil _ hne
      obtain ⟨hrS, hragree⟩ := mem_matchPre.mp hr
      have : r = rom.address := by
        apply wfBytes_ext (hS r hrS) hwa
        intro j hj
        exact hragree j hj
      rw [← this]
      exact hrS
    · intro r hrS hragree hrne
      have : r = rom.address := by
        apply wfBytes_ext (hS r hrS) hwa
        intro j hj
        exact hragree j hj
      exact absurd this hrne
    · intro j hj1 hj2
      omega
    · constructor
      · intro h
        exact Or.inl h
      · rintro (h | ⟨j, hj1, hj2, -⟩)
        · exact h
        · omega
  | succ fuel ih =>
    intro i rom df hfuel hwa hwd hne hld hdisc
    have hi : i < 64 := by omega
    have hL8a : rom.address.length = 8 := hwa.1
    have hL8d : rom.discrepancies.length = 8 := hwd.1
    obtain ⟨r0, hr0⟩ := List.exists_mem_of_ne_nil _ hne
    obtain ⟨hr0S, hr0agree⟩ := mem_matchPre.mp hr0
    have hld0 : ¬ (ld = some i) := hld i (by omega)
    have hb01 : ¬ ((searchBit0 (matchPre S rom.address i) i
        && searchBit1 (matchPre S rom.address i) i) = true) := by
      intro hc
      rw [Bool.and_eq_true] at hc
      have h0 := List.all_eq_true.mp hc.1 r0 hr0
      have h1 := List.all_eq_true.mp hc.2 r0 hr0
      rw [h0] at h1
      cases h1
    have hred : branchLoop ld (fuel + 1) i (matchPre S rom.address i) rom df
        = if (!searchBit0 (matchPre S rom.address i) i
              && !searchBit1 (matchPre S rom.address i) i) = true then
            branchLoop ld fuel (i + 1)
              (busFilter (matchPre S rom.address i) i false)
              { rom with
                discrepancies := set_bit rom.discrepancies i
                address := reset_bit rom.address i } true
          else
            branchLoop ld fuel (i + 1)
              (busFilter (matchPre S rom.address i) i
                (searchBit0 (matchPre S rom.address i) i))
              { rom with
                address := write_bit_in rom.address i
                  (searchBit0 (matchPre S rom.address i) i) } df := by
      simp only [branchLoop]
      rw [if_neg hld0, if_neg hb01]
    rw [hred]
    by_cases hz : (!searchBit0 (matchPre S rom.address i) i
        && !searchBit1 (matchPre S rom.address i) i) = true
    · -- a fresh (0,0) discrepancy: record it and take the 0 branch
      rw [if_pos hz]
      rw [Bool.and_eq_true, Bool.not_eq_true', Bool.not_eq_true'] at hz
      obtain ⟨hbit0, hbit1⟩ := hz
      -- some active device has a 0 at i, some a 1
      have hzero : ∃ rz, rz ∈ matchPre S rom.address i ∧ is_bit_set rz i = false := by
        have := hbit0
        unfold searchBit0 at this
        rcases List.all_eq_false.mp this with ⟨rz, hrz, hrzb⟩
        exact ⟨rz, hrz, by simpa using hrzb⟩
      have hone : ∃ ro, ro ∈ matchPre S rom.address i ∧ is_bit_set ro i = true := by
        have := hbit1
        unfold searchBit1 at this
        rcases List.all_eq_false.mp this with ⟨ro, hro, hrob⟩
        exact ⟨ro, hro, by simpa using hrob⟩
      set rom1 : DeviceSearch :=
        { rom with
          discrepancies := set_bit rom.discrepancies i
          address := reset_bit rom.address i } with hrom1
      have hr1a : rom1.address = reset_bit rom.address i := rfl
      have hr1d : rom1.discrepancies = set_bit rom.discrepancies i := rfl
      have hwa1 : wfBytes rom1.address := reset_bit_wf hwa hi
      have hwd1 : wfBytes rom1.discrepancies := set_bit_wf hwd hi
      have haddr_low1 : ∀ j, j < i → is_bit_set rom1.address j = is_bit_set rom.address j := by
        intro j hj
        rw [hr1a, is_bit_set_reset_bit hL8a hi (by omega), beq_false_of_ne (by omega)]
        simp
      have haddr_i1 : is_bit_set rom1.address i = false := by
        rw [hr1a, is_bit_set_reset_bit hL8a hi hi]
        simp
      have hAct : busFilter (matchPre S rom.address i) i false
          = matchPre S rom1.address (i + 1) :=
        busFilter_matchPre haddr_low1 haddr_i1
      rw [hAct]
      have hne1 : matchPre S rom1.address (i + 1) ≠ [] := by
        obtain ⟨rz, hrz, hrzb⟩ := hzero
        obtain ⟨hrzS, hrzagree⟩ := mem_matchPre.mp hrz
        intro hcon
        have : rz ∈ matchPre S rom1.address (i + 1) := by
          apply mem_matchPre.mpr
          refine ⟨hrzS, ?_⟩
          intro j hj
          rcases Nat.lt_succ_iff_lt_or_eq.mp hj with hj | rfl
          · rw [hrzagree j hj, (haddr_low1 j hj).symm]
          · rw [hrzb, haddr_i1]
        rw [hcon] at this
        cases this
      have hld1 : ∀ j, i + 1 ≤ j → ld ≠ some j := fun j hj => hld j (by omega)
      have hdisc1 : ∀ j, i + 1 ≤ j → j < 64 → is_bit_set rom1.discrepancies j = false := by
        intro j hj1 hj2
        rw [hr1d, is_bit_set_set_bit hL8d hi hj2, beq_false_of_ne (by omega)]
        simpa using hdisc j (by omega) hj2
      obtain bo := ih (i + 1) rom1 true (by omega) hwa1 hwd1 hne1 hld1 hdisc1
      set out := branchLoop ld fuel (i + 1) (matchPre S rom1.address (i + 1)) rom1 true
        with hout
      -- bits of the result at/below i
      have hout_addr_i : is_bit_set out.1.address i = false := by
        rw [bo.addr_low i (by omega), haddr_i1]
      have hout_addr_low : ∀ j, j < i →
          is_bit_set out.1.address j = is_bit_set rom.address j := by
        intro j hj
        rw [bo.addr_low j (by omega), haddr_low1 j hj]
      have hout_disc_i : is_bit_set out.1.discrepancies i = true := by
        rw [bo.disc_low i (by omega), hr1d, is_bit_set_set_bit hL8d hi hi]
        simp
      refine ⟨bo.no_abort, bo.wf_addr, bo.wf_disc, bo.state_eq, hout_addr_low, ?_, bo.mem,
        ?_, ?_, ?_⟩
      · -- discrepancies below i unchanged
        intro j hj
        rw [bo.disc_low j (by omega), hr1d, is_bit_set_set_bit hL8d hi (by omega),
          beq_false_of_ne (by omega)]
        simp
      · -- minimality
        intro r hrS hragree hrne
        rcases hrb : is_bit_set r i with _ | _
        · -- r also has 0 at i: it stays active, recurse
          have hr1 : agreeBelow r rom1.address (i + 1) := by
            intro j hj
            rcases Nat.lt_succ_iff_lt_or_eq.mp hj with hj | rfl
            · rw [hragree j hj, (haddr_low1 j hj).symm]
            · rw [hrb, haddr_i1]
          exact rltFrom_weaken (bo.is_min r hrS hr1 hrne) (by omega)
        · -- r has 1 at i: the result (0 at i) is smaller right here
          refine ⟨i, by omega, hi, ?_, hout_addr_i, hrb⟩
          intro j hj
          rw [hout_addr_low j hj, (hragree j hj).symm]
      · -- discrepancy characterization
        intro j hj1 hj2
        rcases Nat.eq_or_lt_of_le hj1 with rfl | hj1'
        · rw [hout_disc_i]
          constructor
          · intro _
            refine ⟨hout_addr_i, ?_⟩
            obtain ⟨ro, hro, hrob⟩ := hone
            obtain ⟨hroS, hroagree⟩ := mem_matchPre.mp hro
            refine ⟨ro, hroS, ?_, hrob⟩
            intro k hk
            rw [hroagree k hk, (hout_addr_low k hk).symm]
          · intro _
            rfl
        · exact bo.disc_iff j (by omega) hj2
      · -- discrepancy_found flag
        rw [bo.df_iff]
        constructor
        · intro _
          exact Or.inr ⟨i, by omega, hi, hout_disc_i⟩
        · intro _
          exact Or.inl rfl
    · -- a forced bit: all active devices agree at i
      rw [if_neg hz]
      have hall : ∀ r ∈ matchPre S rom.address i,
          is_bit_set r i = searchBit0 (matchPre S rom.address i) i := by
        intro r hr
        rcases hb0 : searchBit0 (matchPre S rom.address i) i with _ | _
        · -- bit0 false forces bit1 true, so every active bit is 0
          have hb1 : searchBit1 (matchPre S rom.address i) i = true := by
            rcases hb1 : searchBit1 (matchPre S rom.address i) i with _ | _
            · exfalso
              apply hz
              rw [hb0, hb1]
              rfl
            · rfl
          have := List.all_eq_true.mp hb1 r hr
          simpa using this
        · exact List.all_eq_true.mp hb0 r hr
      generalize hgen : searchBit0 (matchPre S rom.address i) i = v
      rw [hgen] at hall
      set rom1 : DeviceSearch := { rom with address := write_bit_in rom.address i v }
        with hrom1
      have hr1a : rom1.address = write_bit_in rom.address i v := rfl
      have hr1d : rom1.discrepancies = rom.discrepancies := rfl
      have hwa1 : wfBytes rom1.address := by
        rw [hr1a]
        rcases v with _ | _
        · rw [show write_bit_in rom.address i false = reset_bit rom.address i from rfl]
          exact reset_bit_wf hwa hi
        · rw [show write_bit_in rom.address i true = set_bit rom.address i from rfl]
          exact set_bit_wf hwa hi
      have hL8a1 : rom1.address.length = 8 := hwa1.1
      have haddr_low1 : ∀ j, j < i → is_bit_set rom1.address j = is_bit_set rom.address j := by
        intro j hj
        rw [hr1a]
        rcases v with _ | _
        · rw [show write_bit_in rom.address i false = reset_bit rom.address i from rfl,
            is_bit_set_reset_bit hL8a hi (by omega), beq_false_of_ne (by omega)]
          simp
        · rw [show write_bit_in rom.address i true = set_bit rom.address i from rfl,
            is_bit_set_set_bit hL8a hi (by omega), beq_false_of_ne (by omega)]
          simp
      have haddr_i1 : is_bit_set rom1.address i = v := by
        rw [hr1a]
        rcases v with _ | _
        · rw [show write_bit_in rom.address i false = reset_bit rom.address i from rfl,
            is_bit_set_reset_bit hL8a hi hi]
          simp
        · rw [show write_bit_in rom.address i true = set_bit rom.address i from rfl,
            is_bit_set_set_bit hL8a hi hi]
          simp
      have hAct : busFilter (matchPre S rom.address i) i v
          = matchPre S rom1.address (i + 1) :=
        busFilter_matchPre haddr_low1 haddr_i1
      rw [hAct]
      have hmem1 : ∀ r, r ∈ S → agreeBelow r rom.address i →
          r ∈ matchPre S rom1.address (i + 1) := by
        intro r hrS hragree
        apply mem_matchPre.mpr
        refine ⟨hrS, ?_⟩
        intro j hj
        rcases Nat.lt_succ_iff_lt_or_eq.mp hj with hj | rfl
        · rw [hragree j hj, (haddr_low1 j hj).symm]
        · rw [haddr_i1]
          exact hall r (mem_matchPre.mpr ⟨hrS, hragree⟩)
      have hne1 : matchPre S rom1.address (i + 1) ≠ [] := by
        intro hcon
        have := hmem1 r0 hr0S hr0agree
        rw [hcon] at this
        cases this
      have hld1 : ∀ j, i + 1 ≤ j → ld ≠ some j := fun j hj => hld j (by omega)
      have hdisc1 : ∀ j, i + 1 ≤ j → j < 64 → is_bit_set rom1.discrepancies j = false := by
        intro j hj1 hj2
        rw [hr1d]
        exact hdisc j (by omega) hj2
      obtain bo := ih (i + 1) rom1 df (by omega) hwa1 hwd hne1 hld1 hdisc1
      set out := branchLoop ld fuel (i + 1) (matchPre S rom1.address (i + 1)) rom1 df
        with hout
      have hout_addr_low : ∀ j, j < i →
          is_bit_set out.1.address j = is_bit_set rom.address j := by
        intro j hj
        rw [bo.addr_low j (by omega), haddr_low1 j hj]
      have hout_addr_i : is_bit_set out.1.address i = v := by
        rw [bo.addr_low i (by omega), haddr_i1]
      have hout_disc_i : is_bit_set out.1.discrepancies i = false := by
        rw [bo.disc_low i (by omega), hr1d]
        exact hdisc i (by omega) hi
      refine ⟨bo.no_abort, bo.wf_addr, bo.wf_disc, bo.state_eq, hout_addr_low, ?_, bo.mem,
        ?_, ?_, ?_⟩
      · intro j hj
        rw [bo.disc_low j (by omega), hr1d]
      · -- minimality
        intro r hrS hragree hrne
        exact rltFrom_weaken (bo.is_min r hrS
          ((mem_matchPre.mp (hmem1 r hrS hragree)).2) hrne) (by omega)
      · -- discrepancy characterization
        intro j hj1 hj2
        rcases Nat.eq_or_lt_of_le hj1 with rfl | hj1'
        · rw [hout_disc_i]
          constructor
          · intro h
            cases h
          · rintro ⟨hbit, r, hrS, hragree, hrb⟩
            -- a device with a 1 at i that agrees with the result below i
            -- is active, so v = 1, contradicting the result bit being 0
            have hact : r ∈ matchPre S rom.address i := by
              apply mem_matchPre.mpr
              refine ⟨hrS, ?_⟩
              intro k hk
              rw [hragree k hk, hout_addr_low k hk]
            have := hall r hact
            rw [hrb] at this
            rw [hout_addr_i, ← this] at hbit
            cases hbit
        · exact bo.disc_iff j (by omega) hj2
      · -- discrepancy_found flag
        rw [bo.df_iff]
        constructor
        · rintro (h | ⟨j, hj1, hj2, hj3⟩)
          · exact Or.inl h
          · exact Or.inr ⟨j, by omega, hj2, hj3⟩
        · rintro (h | ⟨j, hj1, hj2, hj3⟩)
          · exact Or.inl h
          · refine Or.inr ⟨j, ?_, hj2, hj3⟩
            rcases Nat.eq_or_lt_of_le hj1 with rfl | hj1'
            · rw [hout_disc_i] at hj3
              cases hj3
            · omega

/-! ### One full `search_next` call -/

/-- The cursor invariant between two successful `search_next` calls:
the address is a device on the bus and the discrepancy bitmap records
exactly the positions where the search chose 0 but a 1-branch remains. -/
structure SInv (S : List (List Nat)) (rom : DeviceSearch) : Prop where
  wf_addr : wfBytes rom.address
  wf_disc : wfBytes rom.discrepancies
  state_found : rom.state = SearchState.DeviceFound
  mem : rom.address ∈ S
  disc_iff : ∀ j, j < 64 →
    (is_bit_set rom.discrepancies j = true
      ↔ (is_bit_set rom.address j = false
          ∧ ∃ r, r ∈ S ∧ agreeBelow r rom.address j ∧ is_bit_set r j = true))

/-- With the discrepancy bitmap characterized, bitmap emptiness says the
address is the visit-order maximum of the bus. -/
theorem disc_all_false_iff_max {S : List (List Nat)} {addr disc : List Nat}
    (hiff : ∀ j, j < 64 →
      (is_bit_set disc j = true
        ↔ (is_bit_set addr j = false
            ∧ ∃ r, r ∈ S ∧ agreeBelow r addr j ∧ is_bit_set r j = true))) :
    (∀ j, j < 64 → is_bit_set disc j = false) ↔ (∀ r, r ∈ S → ¬ rlt addr r) := by
  constructor
  · intro h r hrS hrlt
    obtain ⟨k, -, hk, hag, ha, hrk⟩ := hrlt
    have := (hiff k hk).mpr ⟨ha, r, hrS, agreeBelow_symm hag, hrk⟩
    rw [h k hk] at this
    cases this
  · intro h k hk
    rcases hd : is_bit_set disc k with _ | _
    · rfl
    · obtain ⟨ha, r, hrS, hag, hrb⟩ := (hiff k hk).mp hd
      exact absurd ⟨k, by omega, hk, agreeBelow_symm hag, ha, hrb⟩ (h r hrS)

/-- What `searchFinish` makes of a completed branch phase whose result
cursor `o` satisfies the full discrepancy characterization. -/
theorem searchFinish_spec {S : List (List Nat)}
    (o : DeviceSearch) (odf : Bool)
    (hwa : wfBytes o.address) (hwd : wfBytes o.discrepancies)
    (hmem : o.address ∈ S)
    (hdiff : ∀ j, j < 64 →
      (is_bit_set o.discrepancies j = true
        ↔ (is_bit_set o.address j = false
            ∧ ∃ r, r ∈ S ∧ agreeBelow r o.address j ∧ is_bit_set r j = true))) :
    ∃ rom2 : DeviceSearch,
      searchFinish (o, odf, false) = (rom2, some rom2.address)
      ∧ rom2.address = o.address ∧ rom2.discrepancies = o.discrepancies
      ∧ ((rom2.state = SearchState.DeviceFound ∧ SInv S rom2)
          ∨ (rom2.state = SearchState.End ∧ ∀ r, r ∈ S → ¬ rlt rom2.address r)) := by
  refine ⟨{ o with state := if !odf && (last_discrepancy o.discrepancies).isNone
      then SearchState.End else SearchState.DeviceFound }, ?_, rfl, rfl, ?_⟩
  · simp [searchFinish]
  · by_cases hcond : (!odf && (last_discrepancy o.discrepancies).isNone) = true
    · right
      have hcondB := hcond
      rw [Bool.and_eq_true] at hcond
      have hnone : last_discrepancy o.discrepancies = none := by
        rcases hn : last_discrepancy o.discrepancies with _ | k
        · rfl
        · rw [hn] at hcond
          cases hcond.2
      have hall : ∀ j, j < 64 → is_bit_set o.discrepancies j = false := by
        rw [last_discrepancy_eq_ldAux] at hnone
        exact fun j hj => (ldAux_none o.discrepancies 64).mp hnone j hj
      constructor
      · show (if _ then _ else _) = SearchState.End
        rw [if_pos hcondB]
      · show ∀ r, r ∈ S → ¬ rlt o.address r
        exact fun r hr => (disc_all_false_iff_max hdiff).mp hall r hr
    · left
      constructor
      · show (if _ then _ else _) = SearchState.DeviceFound
        rw [if_neg hcond]
      · refine ⟨hwa, hwd, ?_, hmem, hdiff⟩
        show (if _ then _ else _) = SearchState.DeviceFound
        rw [if_neg hcond]

theorem is_bit_set_zeros (j : Nat) : is_bit_set (List.replicate 8 0) j = false := by
  unfold is_bit_set
  split
  · rfl
  · have h8 : j / 8 < 8 := by
      simp at *
      omega
    have : (List.replicate 8 (0 : Nat)).getD (j / 8) 0 = 0 := by
      rw [List.getD_eq_getElem _ 0 (by simpa using h8)]
      exact List.getElem_replicate _ _
    rw [this]
    simp

theorem wf_zeros : wfBytes (List.replicate 8 0) := by
  refine ⟨by simp, ?_⟩
  intro x hx
  rw [List.eq_of_mem_replicate hx]
  omega

/-- The first `search_next` call on a fresh cursor over a non-empty bus:
it reports the visit-order minimum of the bus and leaves a cursor that is
either invariant-respecting (`DeviceFound`) or final (`End`, when the
minimum is also the maximum). -/
theorem searchCore_first {S : List (List Nat)} (hS : ∀ r ∈ S, wfBytes r)
    (hSne : S ≠ []) :
    ∃ rom2 : DeviceSearch,
      searchCore S DeviceSearch.new = (rom2, some rom2.address)
      ∧ rom2.address ∈ S
      ∧ (∀ r, r ∈ S → r ≠ rom2.address → rlt rom2.address r)
      ∧ ((rom2.state = SearchState.DeviceFound ∧ SInv S rom2)
          ∨ (rom2.state = SearchState.End ∧ ∀ r, r ∈ S → ¬ rlt rom2.address r)) := by
  have hempty : S.isEmpty = false := by
    rcases S with _ | ⟨x, S⟩
    · exact absurd rfl hSne
    · rfl
  have hldnew : last_discrepancy DeviceSearch.new.discrepancies = none := by decide
  have hred : searchCore S DeviceSearch.new
      = searchFinish (branchLoop none 64 0 S DeviceSearch.new false) := by
    unfold searchCore
    rw [if_neg (by decide), hldnew, hempty]
    rw [if_neg (by decide)]
    rfl
  have hSm : branchLoop none 64 0 S DeviceSearch.new false
      = branchLoop none 64 0 (matchPre S DeviceSearch.new.address 0)
          DeviceSearch.new false := by
    rw [matchPre_zero]
  have hne0 : matchPre S DeviceSearch.new.address 0 ≠ [] := by
    rw [matchPre_zero]
    exact hSne
  have hwa : wfBytes DeviceSearch.new.address := wf_zeros
  have hwd : wfBytes DeviceSearch.new.discrepancies := wf_zeros
  have hdisc0 : ∀ j, 0 ≤ j → j < 64 →
      is_bit_set DeviceSearch.new.discrepancies j = false :=
    fun j _ _ => is_bit_set_zeros j
  obtain bo := branchLoop_spec hS none 64 0 DeviceSearch.new false (by omega) hwa hwd hne0
    (fun j _ h => Option.noConfusion h) hdisc0
  rcases hout : branchLoop none 64 0 (matchPre S DeviceSearch.new.address 0)
      DeviceSearch.new false with ⟨o, odf, oab⟩
  rw [hout] at bo
  have hoab : oab = false := bo.no_abort
  subst hoab
  have hdiff : ∀ j, j < 64 →
      (is_bit_set o.discrepancies j = true
        ↔ (is_bit_set o.address j = false
            ∧ ∃ r, r ∈ S ∧ agreeBelow r o.address j ∧ is_bit_set r j = true)) :=
    fun j hj => bo.disc_iff j (by omega) hj
  obtain ⟨rom2, hfin, haddr2, hdisc2, hstates⟩ :=
    searchFinish_spec (S := S) o odf bo.wf_addr bo.wf_disc bo.mem hdiff
  refine ⟨rom2, ?_, ?_, ?_, hstates⟩
  · rw [hred, hSm, hout, hfin]
  · rw [haddr2]
    exact bo.mem
  · intro r hrS hrne
    rw [haddr2]
    exact rltFrom_rlt (bo.is_min r hrS (fun j hj => by omega)
      (by rw [← haddr2]; exact hrne))

/-- One `search_next` call on an invariant-respecting cursor: either the
cursor's address was the visit-order maximum, the state flips to `End` and
nothing is reported; or the visit-order successor is reported and the
resulting cursor is again invariant-respecting (or final at the maximum). -/
theorem searchCore_step {S : List (List Nat)} (hS : ∀ r ∈ S, wfBytes r)
    {rom : DeviceSearch} (hinv : SInv S rom) :
    ((∀ r, r ∈ S → ¬ rlt rom.address r)
      ∧ searchCore S rom = ({ rom with state := SearchState.End }, none))
    ∨ (∃ rom2 : DeviceSearch,
        searchCore S rom = (rom2, some rom2.address)
        ∧ rom2.address ∈ S
        ∧ rlt rom.address rom2.address
        ∧ (∀ r, r ∈ S → rlt rom.address r → r = rom2.address ∨ rlt rom2.address r)
        ∧ ((rom2.state = SearchState.DeviceFound ∧ SInv S rom2)
            ∨ (rom2.state = SearchState.End ∧ ∀ r, r ∈ S → ¬ rlt rom2.address r))) := by
  have hempty : S.isEmpty = false := by
    rcases S with _ | ⟨x, S⟩
    · cases hinv.mem
    · rfl
  have hstne : ¬ (rom.state = SearchState.End) := by
    rw [hinv.state_found]
    intro h
    cases h
  have hL8a : rom.address.length = 8 := hinv.wf_addr.1
  have hL8d : rom.discrepancies.length = 8 := hinv.wf_disc.1
  rcases hld : last_discrepancy rom.discrepancies with _ | L
  · -- no pending discrepancy: the cursor address is the maximum
    left
    have hall : ∀ j, j < 64 → is_bit_set rom.discrepancies j = false := by
      rw [last_discrepancy_eq_ldAux] at hld
      exact fun j hj => (ldAux_none rom.discrepancies 64).mp hld j hj
    refine ⟨(disc_all_false_iff_max hinv.disc_iff).mp hall, ?_⟩
    unfold searchCore
    rw [if_neg hstne, hld, hempty]
    show (if rom.state = SearchState.DeviceFound
        then ({ rom with state := SearchState.End }, none)
        else searchFinish (branchLoop none 64 0 S rom false)) = _
    rw [if_pos hinv.state_found]
  · -- a pending discrepancy at the highest set bit L: take its 1-branch
    right
    have hldx := hld
    rw [last_discrepancy_eq_ldAux] at hldx
    obtain ⟨hdL, hL64, hLmax⟩ := ldAux_some rom.discrepancies 64 L hldx
    obtain ⟨haL, rone, hroneS, hroneagree, hroneb⟩ := (hinv.disc_iff L hL64).mp hdL
    have hrepl : replayLoop rom.address L 0 S = some (matchPre S rom.address L) := by
      conv_lhs => rw [← matchPre_zero S rom.address]
      rw [replayLoop_spec hinv.mem L 0, Nat.zero_add]
    set F := 64 - L - 1 with hF
    have hfuel : 64 - L = F + 1 := by omega
    set rom1 : DeviceSearch :=
      { rom with
        discrepancies := reset_bit rom.discrepancies L
        address := set_bit rom.address L } with hrom1
    have hr1a : rom1.address = set_bit rom.address L := rfl
    have hr1d : rom1.discrepancies = reset_bit rom.discrepancies L := rfl
    have hagree1 : ∀ j, j < L → is_bit_set rom1.address j = is_bit_set rom.address j := by
      intro j hj
      rw [hr1a, is_bit_set_set_bit hL8a hL64 (by omega), beq_false_of_ne (by omega)]
      simp
    have hbit1 : is_bit_set rom1.address L = true := by
      rw [hr1a, is_bit_set_set_bit hL8a hL64 hL64]
      simp
    have hred : searchCore S rom
        = searchFinish (branchLoop (some L) (64 - L) L (matchPre S rom.address L)
            rom false) := by
      unfold searchCore
      rw [if_neg hstne, hld, hempty]
      show (match replayLoop rom.address L 0 S with
        | none => (rom, none)
        | some active => searchFinish (branchLoop (some L) (64 - L) L active rom false)) = _
      rw [hrepl]
    have hstep : branchLoop (some L) (64 - L) L (matchPre S rom.address L) rom false
        = branchLoop (some L) F (L + 1)
            (busFilter (matchPre S rom.address L) L true) rom1 false := by
      rw [hfuel]
      simp only [branchLoop]
      rw [if_pos trivial]
    have hAct : busFilter (matchPre S rom.address L) L true
        = matchPre S rom1.address (L + 1) :=
      busFilter_matchPre hagree1 hbit1
    have hne1 : matchPre S rom1.address (L + 1) ≠ [] := by
      intro hcon
      have : rone ∈ matchPre S rom1.address (L + 1) := by
        apply mem_matchPre.mpr
        refine ⟨hroneS, ?_⟩
        intro j hj
        rcases Nat.lt_succ_iff_lt_or_eq.mp hj with hj | rfl
        · rw [hroneagree j hj, (hagree1 j hj).symm]
        · rw [hroneb, hbit1]
      rw [hcon] at this
      cases this
    have hld1 : ∀ j, L + 1 ≤ j → (some L : Option Nat) ≠ some j := by
      intro j hj hc
      injection hc with hc
      omega
    have hdisc1 : ∀ j, L + 1 ≤ j → j < 64 → is_bit_set rom1.discrepancies j = false := by
      intro j hj1 hj2
      rw [hr1d, is_bit_set_reset_bit hL8d hL64 hj2, beq_false_of_ne (by omega)]
      simpa using hLmax j (by omega) hj2
    have hwa1 : wfBytes rom1.address := set_bit_wf hinv.wf_addr hL64
    have hwd1 : wfBytes rom1.discrepancies := reset_bit_wf hinv.wf_disc hL64
    obtain bo := branchLoop_spec hS (some L) F (L + 1) rom1 false (by omega) hwa1 hwd1
      hne1 hld1 hdisc1
    rcases hout : branchLoop (some L) F (L + 1) (matchPre S rom1.address (L + 1))
        rom1 false with ⟨o, odf, oab⟩
    rw [hout] at bo
    have hoab : oab = false := bo.no_abort
    subst hoab
    -- result-address bits at and below L
    have haoj : ∀ m, m < L → is_bit_set o.address m = is_bit_set rom.address m := by
      intro m hm
      rw [bo.addr_low m (by omega), hagree1 m hm]
    have haoL : is_bit_set o.address L = true := by
      rw [bo.addr_low L (by omega), hbit1]
    have hdiff : ∀ j, j < 64 →
        (is_bit_set o.discrepancies j = true
          ↔ (is_bit_set o.address j = false
              ∧ ∃ r, r ∈ S ∧ agreeBelow r o.address j ∧ is_bit_set r j = true)) := by
      intro j hj
      rcases Nat.lt_trichotomy j L with hjL | rfl | hjL
      · -- below L: the bitmap and the address agree with the old cursor
        have hdo : is_bit_set o.discrepancies j = is_bit_set rom.discrepancies j := by
          rw [bo.disc_low j (by omega), hr1d,
            is_bit_set_reset_bit hL8d hL64 hj, beq_false_of_ne (by omega)]
          simp
        rw [hdo, hinv.disc_iff j hj, haoj j hjL]
        constructor
        · rintro ⟨hb, r, hrS, hag, hrb⟩
          refine ⟨hb, r, hrS, ?_, hrb⟩
          intro m hm
          rw [hag m hm, (haoj m (by omega)).symm]
        · rintro ⟨hb, r, hrS, hag, hrb⟩
          refine ⟨hb, r, hrS, ?_, hrb⟩
          intro m hm
          rw [hag m hm, haoj m (by omega)]
      · -- at L (renamed to j by the case split): the discrepancy was
        -- cleared, and the address bit is now 1
        have hdo : is_bit_set o.discrepancies j = false := by
          rw [bo.disc_low j (by omega), hr1d, is_bit_set_reset_bit hL8d hL64 hL64]
          simp
        rw [hdo, haoL]
        constructor
        · intro h
          cases h
        · rintro ⟨h, -⟩
          cases h
      · exact bo.disc_iff j (by omega) hj
    obtain ⟨rom2, hfin, haddr2, hdisc2, hstates⟩ :=
      searchFinish_spec (S := S) o odf bo.wf_addr bo.wf_disc bo.mem hdiff
    refine ⟨rom2, ?_, ?_, ?_, ?_, hstates⟩
    · rw [hred, hstep, hAct, hout, hfin]
    · rw [haddr2]
      exact bo.mem
    · -- strictly greater: the deciding bit is L
      rw [haddr2]
      refine ⟨L, by omega, hL64, ?_, haL, haoL⟩
      intro m hm
      rw [haoj m hm]
    · -- the reported address is the immediate successor
      intro r hrS hrlt
      rw [haddr2]
      obtain ⟨k, -, hk64, hag, hak, hrk⟩ := hrlt
      have hkL : k ≤ L := by
        by_contra hkL
        have := (hinv.disc_iff k hk64).mpr ⟨hak, r, hrS, agreeBelow_symm hag, hrk⟩
        rw [hLmax k (by omega) hk64] at this
        cases this
      rcases Nat.eq_or_lt_of_le hkL with rfl | hkL'
      · -- difference exactly at L: r is in the taken branch
        have hrmem : agreeBelow r rom1.address (k + 1) := by
          intro m hm
          rcases Nat.lt_succ_iff_lt_or_eq.mp hm with hm | rfl
          · rw [(hag m hm).symm, (hagree1 m hm).symm]
          · rw [hrk, hbit1]
        by_cases hrne : r = o.address
        · exact Or.inl hrne
        · exact Or.inr (rltFrom_rlt (bo.is_min r hrS hrmem hrne))
      · -- difference below L: the result still has the old 0 there
        refine Or.inr ⟨k, by omega, hk64, ?_, ?_, hrk⟩
        · intro m hm
          rw [haoj m (by omega), hag m hm]
        · rw [haoj k (by omega)]
          exact hak

/-! ### Exhaustive enumeration -/

theorem length_filter_lt {α : Type} (S : List α) (p q : α → Bool) (x : α)
    (himp : ∀ y ∈ S, q y = true → p y = true) (hx : x ∈ S) (hpx : p x = true)
    (hqx : q x = false) : (S.filter q).length < (S.filter p).length := by
  have hsub : S.filter q = (S.filter p).filter q := by
    rw [List.filter_filter]
    apply List.filter_congr
    intro y hy
    rcases hq : q y with _ | _
    · simp
    · simp [himp y hy hq]
  have hsl : (S.filter q).Sublist (S.filter p) := by
    rw [hsub]
    exact List.filter_sublist _
  rcases Nat.lt_or_ge (S.filter q).length (S.filter p).length with h | h
  · exact h
  · exfalso
    have heq : S.filter q = S.filter p :=
      hsl.eq_of_length (Nat.le_antisymm hsl.length_le h)
    have : x ∈ S.filter q := by
      rw [heq]
      exact List.mem_filter.mpr ⟨hx, hpx⟩
    rw [List.mem_filter, hqx] at this
    cases this.2

/-- The decidable visit-order comparison used as a filter. -/
def rltB (a r : List Nat) : Bool := decide (rlt a r)

/-- Resuming the search from an invariant cursor enumerates (as a set)
exactly the devices strictly after the cursor address in visit order. -/
theorem searchAll_inv {S : List (List Nat)} (hS : ∀ r ∈ S, wfBytes r) (hnd : S.Nodup) :
    ∀ (n : Nat) (rom : DeviceSearch), SInv S rom →
      (S.filter (rltB rom.address)).length ≤ n →
      ∀ fuel, (S.filter (rltB rom.address)).length + 1 ≤ fuel →
        List.Perm (searchAll S rom fuel) (S.filter (rltB rom.address)) := by
  intro n
  induction n with
  | zero =>
    intro rom hinv hmeas fuel hfuel
    -- the filter is empty, so the address is the maximum
    have hnil : S.filter (rltB rom.address) = [] := by
      rcases hfe : S.filter (rltB rom.address) with _ | ⟨y, l⟩
      · rfl
      · rw [hfe] at hmeas
        simp at hmeas
    rw [hnil]
    have hmax : ∀ r, r ∈ S → ¬ rlt rom.address r := by
      intro r hrS hrlt
      have : r ∈ S.filter (rltB rom.address) :=
        List.mem_filter.mpr ⟨hrS, by simp [rltB, hrlt]⟩
      rw [hnil] at this
      cases this
    rcases fuel with _ | f
    · omega
    · rcases searchCore_step hS hinv with ⟨-, heq⟩ | ⟨rom2, -, hmem2, hgt, -, -⟩
      · show List.Perm (searchAll S rom (f + 1)) []
        simp only [searchAll]
        rw [heq]
      · exact absurd hgt (hmax _ hmem2)
  | succ n ih =>
    intro rom hinv hmeas fuel hfuel
    rcases fuel with _ | f
    · omega
    · rcases searchCore_step hS hinv with ⟨hmax, heq⟩ | h
      · -- maximum reached: nothing more is reported, and the filter is empty
        have hnil : S.filter (rltB rom.address) = [] := by
          rcases hfe : S.filter (rltB rom.address) with _ | ⟨y, l⟩
          · rfl
          · exfalso
            have : y ∈ S.filter (rltB rom.address) := by
              rw [hfe]
              exact List.mem_cons_self y l
            rw [List.mem_filter] at this
            exact hmax y this.1 (by simpa [rltB] using this.2)
        rw [hnil]
        show List.Perm (searchAll S rom (f + 1)) []
        simp only [searchAll]
        rw [heq]
      · obtain ⟨rom2, heq, hmem2, hgt, hsucc, hstates⟩ := h
        have hstep_red : searchAll S rom (f + 1) = rom2.address :: searchAll S rom2 f := by
          simp only [searchAll]
          rw [heq]
        rw [hstep_red]
        -- the old filter is the new head plus the new filter
        have himp : ∀ y ∈ S, rltB rom2.address y = true → rltB rom.address y = true := by
          intro y _ hq
          simp only [rltB, decide_eq_true_eq] at hq ⊢
          exact rlt_trans hgt hq
        have hmem2p : rltB rom.address rom2.address = true := by
          simp [rltB, hgt]
        have hmem2q : rltB rom2.address rom2.address = false := by
          simp [rltB]
          exact rlt_irrefl _
        have hlt : (S.filter (rltB rom2.address)).length
            < (S.filter (rltB rom.address)).length :=
          length_filter_lt S (rltB rom.address) (rltB rom2.address) rom2.address
            himp hmem2 hmem2p hmem2q
        have hperm_key : List.Perm (rom2.address :: S.filter (rltB rom2.address))
            (S.filter (rltB rom.address)) := by
          refine (List.perm_ext_iff_of_nodup ?_ ?_).mpr ?_
          · constructor
            · intro y hy hxy
              rw [List.mem_filter, ← hxy, hmem2q] at hy
              exact Bool.noConfusion hy.2
            · exact hnd.filter _
          · exact hnd.filter _
          · intro x
            constructor
            · intro hx
              rcases List.mem_cons.mp hx with rfl | hx
              · exact List.mem_filter.mpr ⟨hmem2, hmem2p⟩
              · rw [List.mem_filter] at hx ⊢
                exact ⟨hx.1, himp x hx.1 hx.2⟩
            · intro hx
              rw [List.mem_filter] at hx
              rcases hsucc x hx.1 (by simpa [rltB] using hx.2) with rfl | hx2
              · exact List.mem_cons_self _ _
              · exact List.mem_cons_of_mem _
                  (List.mem_filter.mpr ⟨hx.1, by simp [rltB, hx2]⟩)
        have htail : List.Perm (searchAll S rom2 f) (S.filter (rltB rom2.address)) := by
          rcases hstates with ⟨-, hinv2⟩ | ⟨hend2, hmax2⟩
          · exact ih rom2 hinv2 (by omega) f (by omega)
          · -- the reported address was the maximum: next call ends at once
            have hnil2 : S.filter (rltB rom2.address) = [] := by
              rcases hfe : S.filter (rltB rom2.address) with _ | ⟨y, l⟩
              · rfl
              · exfalso
                have : y ∈ S.filter (rltB rom2.address) := by
                  rw [hfe]
                  exact List.mem_cons_self y l
                rw [List.mem_filter] at this
                exact hmax2 y this.1 (by simpa [rltB] using this.2)
            rw [hnil2]
            have hf1 : 1 ≤ f := by
              have : rom2.address ∈ S.filter (rltB rom.address) :=
                List.mem_filter.mpr ⟨hmem2, hmem2p⟩
              have := List.length_pos_of_mem this
              omega
            rcases f with _ | f'
            · omega
            · show List.Perm (searchAll S rom2 (f' + 1)) []
              simp only [searchAll]
              rw [show searchCore S rom2 = (rom2, none) from by
                unfold searchCore
                rw [if_pos hend2]]
        exact List.Perm.trans (List.Perm.cons rom2.address htail) hperm_key

/-- C1: repeated `search_next` calls starting from `DeviceSearch::new()` over a
bus of distinct responding devices report each device address exactly once (a
permutation of the bus) and then return `Ok(None)`: when the reset presence
pulse sees no device the call yields no address, and once the `End` state is
reached every further call returns `(rom, None)` without touching the bus. -/
theorem search_enumerates :
    (∀ S : List (List Nat), S.Nodup → (∀ r ∈ S, wfBytes r) →
      ∀ fuel, S.length + 1 ≤ fuel →
        List.Perm (searchAll S DeviceSearch.new fuel) S)
    ∧ (∀ rom : DeviceSearch, (searchCore [] rom).2 = none)
    ∧ (∀ (S : List (List Nat)) (rom : DeviceSearch),
        rom.state = SearchState.End → searchCore S rom = (rom, none)) := by
  refine ⟨?_, ?_, ?_⟩
  · intro S hnd hwf fuel hfuel
    by_cases hSe : S = []
    · subst hSe
      rcases fuel with _ | f
      · omega
      · show List.Perm (searchAll [] DeviceSearch.new (f + 1)) []
        simp only [searchAll]
        rw [show searchCore [] DeviceSearch.new = (DeviceSearch.new, none) from rfl]
    · obtain ⟨rom2, heq, hmem2, hmin, hstates⟩ := searchCore_first hwf hSe
      rcases fuel with _ | f
      · omega
      have hstep_red : searchAll S DeviceSearch.new (f + 1)
          = rom2.address :: searchAll S rom2 f := by
        simp only [searchAll]
        rw [heq]
      rw [hstep_red]
      have hmem2q : rltB rom2.address rom2.address = false := by
        simp [rltB]
        exact rlt_irrefl _
      -- as a set, the bus is the minimum plus the strictly-later devices
      have hperm_key : List.Perm (rom2.address :: S.filter (rltB rom2.address)) S := by
        refine (List.perm_ext_iff_of_nodup ?_ ?_).mpr ?_
        · constructor
          · intro y hy hxy
            rw [List.mem_filter, ← hxy, hmem2q] at hy
            exact Bool.noConfusion hy.2
          · exact hnd.filter _
        · exact hnd
        · intro x
          constructor
          · intro hx
            rcases List.mem_cons.mp hx with rfl | hx
            · exact hmem2
            · exact (List.mem_filter.mp hx).1
          · intro hx
            by_cases hxeq : x = rom2.address
            · subst hxeq
              exact List.mem_cons_self _ _
            · refine List.mem_cons_of_mem _ (List.mem_filter.mpr ⟨hx, ?_⟩)
              simp only [rltB, decide_eq_true_eq]
              exact hmin x hx hxeq
      have hflt : (S.filter (rltB rom2.address)).length < S.length := by
        have hsl : (S.filter (rltB rom2.address)).Sublist S := List.filter_sublist _
        rcases Nat.lt_or_ge (S.filter (rltB rom2.address)).length S.length with h | h
        · exact h
        · exfalso
          have heqS : S.filter (rltB rom2.address) = S :=
            hsl.eq_of_length (Nat.le_antisymm hsl.length_le h)
          have hin : rom2.address ∈ S.filter (rltB rom2.address) := by
            rw [heqS]
            exact hmem2
          rw [List.mem_filter, hmem2q] at hin
          exact Bool.noConfusion hin.2
      have htail : List.Perm (searchAll S rom2 f) (S.filter (rltB rom2.address)) := by
        rcases hstates with ⟨-, hinv2⟩ | ⟨hend2, hmax2⟩
        · exact searchAll_inv hwf hnd (S.filter (rltB rom2.address)).length rom2 hinv2
            (Nat.le_refl _) f (by omega)
        · have hnil2 : S.filter (rltB rom2.address) = [] := by
            rcases hfe : S.filter (rltB rom2.address) with _ | ⟨y, l⟩
            · rfl
            · exfalso
              have hy : y ∈ S.filter (rltB rom2.address) := by
                rw [hfe]
                exact List.mem_cons_self y l
              rw [List.mem_filter] at hy
              exact hmax2 y hy.1 (by simpa [rltB] using hy.2)
          rw [hnil2]
          have hf1 : 1 ≤ f := by
            have := List.length_pos_of_mem hmem2
            omega
          rcases f with _ | f'
          · omega
          · show List.Perm (searchAll S rom2 (f' + 1)) []
            simp only [searchAll]
            rw [show searchCore S rom2 = (rom2, none) from by
              unfold searchCore
              rw [if_pos hend2]]
      exact List.Perm.trans (List.Perm.cons rom2.address htail) hperm_key
  · intro rom
    unfold searchCore
    by_cases h : rom.state = SearchState.End
    · rw [if_pos h]
    · rw [if_neg h]
      rfl
  · intro S rom h
    unfold searchCore
    rw [if_pos h]

theorem search_enumerates_witness :
    List.Perm
      (searchAll [[40, 1, 0, 0, 0, 0, 0, 0], [1, 2, 0, 0, 0, 0, 0, 0],
        [40, 3, 0, 0, 0, 0, 0, 0]] DeviceSearch.new 4)
      [[40, 1, 0, 0, 0, 0, 0, 0], [1, 2, 0, 0, 0, 0, 0, 0],
        [40, 3, 0, 0, 0, 0, 0, 0]] :=
  search_enumerates.1 _ (by decide) (by decide) 4 (by decide)

end OneWire
